import Mathlib

/-!
The mod helper of fionera/satisfactory-server: a shallow embedding of `main.go`.

Go strings are modelled as lists of characters, byte slices as lists of bytes.
The Go standard library and the operating system are the environment of the
program: the pieces `main.go` calls are modelled here after their documented
behaviour, the program's own functions are translated line by line.
-/

namespace ModHelper

/-- Go `string`. -/
abbrev Str := List Char

/-- Go `[]byte`. -/
abbrev Bytes := List UInt8

/-! ## package strings -/

/-- Go `strings.IndexByte(s, c)`: position of the first `c` in `s`. -/
def strings_Index : Str → Char → Option Nat
  | [], _ => none
  | x :: xs, c => if x = c then some 0 else (strings_Index xs c).map (· + 1)

/-- Go `strings.Count(s, sep)` for a one-byte separator. -/
def strings_Count : Str → Char → Nat
  | [], _ => 0
  | x :: xs, c => (if x = c then 1 else 0) + strings_Count xs c

/-- The loop of `genSplit`: `k` is `n - 1 - i`, the number of cuts still allowed.
```go
for i < n {
    m := Index(s, sep)
    if m < 0 { break }
    a[i] = s[:m+sepSave]
    s = s[m+len(sep):]
    i++
}
a[i] = s
return a[:i+1]
``` -/
def genSplitLoop (sep : Char) : Nat → Str → List Str
  | 0, s => [s]
  | k + 1, s =>
    match strings_Index s sep with
    | none => [s]
    | some m => s.take m :: genSplitLoop sep k (s.drop (m + 1))

/-- Go `strings.genSplit(s, sep, 0, n)` for a one-byte separator `sep`
(`main.go` only splits on `","` and `":"`); `n < 0` means no limit. -/
def genSplit (s : Str) (sep : Char) (n : Int) : List Str :=
  if n = 0 then []
  else
    let n1 : Nat := if n < 0 then strings_Count s sep + 1 else n.toNat
    let n2 : Nat := if n1 > s.length + 1 then s.length + 1 else n1
    genSplitLoop sep (n2 - 1) s

/-- Go `strings.Split(s, sep)`. -/
def strings_Split (s : Str) (sep : Char) : List Str := genSplit s sep (-1)

/-- Go `strings.SplitN(s, sep, n)`. -/
def strings_SplitN (s : Str) (sep : Char) (n : Int) : List Str := genSplit s sep n

/-! ## package path -/

/-- State of the loop of `path.Clean`: the unread rest of the path (`path[r:]`),
the output buffer (`out`, of length `out.w`) and the index `dotdot`. -/
structure CleanState where
  rest : Str
  out : Str
  dotdot : Nat
deriving DecidableEq

/-- The backtracking of a `..` element:
```go
out.w--
for out.w > dotdot && out.index(out.w) != '/' {
    out.w--
}
```
The buffer is given reversed, so that `out.index(out.w)` is the head of what
has just been cut off. -/
def backtrackLoop (dotdot : Nat) : Char → List Char → List Char
  | _, [] => []
  | last, c :: revOut =>
    if (c :: revOut).length > dotdot ∧ last ≠ '/' then backtrackLoop dotdot c revOut
    else c :: revOut

/-- The statement `out.w--` followed by the loop above, on the buffer in reading order. -/
def backtrack (dotdot : Nat) (out : Str) : Str :=
  match out.reverse with
  | [] => []
  | last :: revOut => (backtrackLoop dotdot last revOut).reverse

/-- One iteration of the `for r < n` loop of `path.Clean`. -/
def cleanStep (rooted : Bool) (st : CleanState) : CleanState :=
  match st.rest with
  | [] => st
  | c :: t =>
    if c = '/' then
      -- empty path element
      { st with rest := t }
    else if c = '.' ∧ (t = [] ∨ t.head? = some '/') then
      -- . element
      { st with rest := t }
    else if c = '.' ∧ t.head? = some '.' ∧ (t.tail = [] ∨ t.tail.head? = some '/') then
      -- .. element: remove to last /
      if st.out.length > st.dotdot then
        -- can backtrack
        { st with rest := t.tail, out := backtrack st.dotdot st.out }
      else if ¬ rooted then
        -- cannot backtrack, but not rooted, so append .. element.
        let out1 := if st.out.length > 0 then st.out ++ ['/'] else st.out
        let out2 := out1 ++ ['.', '.']
        { rest := t.tail, out := out2, dotdot := out2.length }
      else
        { st with rest := t.tail }
    else
      -- real path element: add slash if needed, copy element
      let out1 :=
        if (rooted ∧ st.out.length ≠ 1) ∨ (¬ rooted ∧ st.out.length ≠ 0) then st.out ++ ['/']
        else st.out
      let el := (c :: t).takeWhile (· ≠ '/')
      { st with rest := (c :: t).dropWhile (· ≠ '/'), out := out1 ++ el }

/-- The `for r < n` loop of `path.Clean`; every iteration reads at least one
byte, so `fuel = len(path)` iterations are enough. -/
def cleanLoop (rooted : Bool) : Nat → CleanState → CleanState
  | 0, st => st
  | fuel + 1, st =>
    match st.rest with
    | [] => st
    | _ :: _ => cleanLoop rooted fuel (cleanStep rooted st)

/-- Go `path.Clean(path)`. -/
def path_Clean (path : Str) : Str :=
  if path = [] then ['.']
  else
    let rooted : Bool := path.head? = some '/'
    let st0 : CleanState :=
      if rooted then { rest := path.tail, out := ['/'], dotdot := 1 }
      else { rest := path, out := [], dotdot := 0 }
    let st := cleanLoop rooted path.length st0
    if st.out.length = 0 then ['.'] else st.out

/-- The loop of `path.Join` that glues the non-empty elements with `/`. -/
def joinBuf : Str → List Str → Str
  | buf, [] => buf
  | buf, e :: es =>
    if buf.length > 0 ∨ e ≠ [] then
      joinBuf ((if buf.length > 0 then buf ++ ['/'] else buf) ++ e) es
    else joinBuf buf es

/-- Go `path.Join(elem...)`. -/
def path_Join (elem : List Str) : Str :=
  if (elem.map List.length).sum = 0 then []
  else path_Clean (joinBuf [] elem)

/-- Go `strings.LastIndexByte(path, '/') + 1`, the length of the directory part. -/
def lastSlashEnd : Str → Nat
  | [] => 0
  | c :: cs =>
    if '/' ∈ cs then lastSlashEnd cs + 1
    else if c = '/' then 1 else 0

/-- Go `path.Split(path)`: the text up to and including the last slash, and the rest. -/
def path_Split (path : Str) : Str × Str :=
  let i := lastSlashEnd path
  (path.take i, path.drop i)


/-! ## The operating system: files and directories -/

/-- The error numbers the model can report. -/
inductive Errno
  | ENOENT
  | ENOTDIR
  | EISDIR
  | EINVAL
  | EACCES
deriving DecidableEq

/-- Go `error` values met by the program. -/
inductive GoError
  /-- Go `*fs.PathError` of package os. -/
  | pathError (op : Str) (path : Str) (errno : Errno)
  /-- An error made by `fmt.Errorf`, with its message. -/
  | errorf (msg : Str)
  /-- An error of net/http, io, archive/zip or encoding/json, with its message. -/
  | lib (msg : Str)
deriving DecidableEq

deriving instance DecidableEq for Except

/-- Go `syscall.Errno.Error()`. -/
def Errno.text : Errno → Str
  | .ENOENT => "no such file or directory".toList
  | .ENOTDIR => "not a directory".toList
  | .EISDIR => "is a directory".toList
  | .EINVAL => "invalid argument".toList
  | .EACCES => "permission denied".toList

/-- Go `err.Error()`. -/
def GoError.Error : GoError → Str
  | .pathError op path errno => op ++ " ".toList ++ path ++ ": ".toList ++ errno.text
  | .errorf msg => msg
  | .lib msg => msg

/-- Go `errors.Is(err, os.ErrNotExist)`: only ENOENT is "not exist"; ENOTDIR is not. -/
def isNotExist : GoError → Bool
  | .pathError _ _ .ENOENT => true
  | _ => false

/-- A location in the file tree: the names from the root down. -/
abbrev Loc := List Str

/-- What a location holds. -/
inductive Node
  | file (data : Bytes)
  | dir
deriving DecidableEq

/-- The filesystem: the working directory of the process, the file tree, and
the places the process is not allowed to delete (an entry of a directory it
may not write to, a file marked immutable, a mount point). There are no
symbolic links and no quotas. -/
structure FS where
  cwd : Loc
  node : Loc → Option Node
  pinned : List Loc

/-- The node at a location; the root is always a directory. -/
def FS.get (fs : FS) (p : Loc) : Option Node :=
  if p = [] then some .dir else fs.node p

/-- The tree with location `p` holding `n`. -/
def FS.set (fs : FS) (p : Loc) (n : Node) : FS :=
  { fs with node := fun q => if q = p then some n else fs.node q }

/-- What a removal cannot take away: a place that may not be deleted and
holds something, and every directory above such a place. -/
def FS.stays (fs : FS) (q : Loc) : Bool :=
  fs.pinned.any fun r => q <+: r ∧ fs.get r ≠ none

/-- The tree without `p` and everything below it, as far as it can be
deleted. -/
def FS.removeTree (fs : FS) (p : Loc) : FS :=
  { fs with node := fun q => if p <+: q ∧ fs.stays q = false then none else fs.node q }

/-- The elements of a path: the text between its slashes. -/
def splitOnChar (sep : Char) : Str → List Str
  | [] => [[]]
  | c :: cs =>
    if c = sep then [] :: splitOnChar sep cs
    else
      match splitOnChar sep cs with
      | [] => [[c]]
      | e :: es => (c :: e) :: es

/-- The elements of a path as the kernel reads them. -/
def pathElems (path : Str) : List Str := splitOnChar '/' path

/-- An element that names a directory entry: not empty, not `.`, not `..`. -/
def isName (e : Str) : Bool := e ≠ [] ∧ e ≠ ['.'] ∧ e ≠ ['.', '.']

/-- One step of path resolution from directory `cur` over element `e`. -/
def stepLoc (cur : Loc) (e : Str) : Loc :=
  if e = [] ∨ e = ['.'] then cur
  else if e = ['.', '.'] then cur.dropLast
  else cur ++ [e]

/-- Path resolution: every element is looked up in a directory that exists.
The result is where the path leads; whether something is there is for the
caller to check. -/
def walk (fs : FS) : Loc → List Str → Except Errno Loc
  | cur, [] => .ok cur
  | cur, e :: es =>
    match fs.get cur with
    | none => .error .ENOENT
    | some (.file _) => .error .ENOTDIR
    | some .dir => walk fs (stepLoc cur e) es

/-- Where resolution of `path` starts. -/
def startLoc (fs : FS) (path : Str) : Loc :=
  if path.head? = some '/' then [] else fs.cwd

/-- Resolution of a path string; the empty path is ENOENT. -/
def namei (fs : FS) (path : Str) : Except Errno Loc :=
  if path = [] then .error .ENOENT
  else walk fs (startLoc fs path) (pathElems path)

/-- Go `os.Stat(name)`. -/
def os_Stat (fs : FS) (name : Str) : Except GoError Node :=
  match namei fs name with
  | .error e => .error (.pathError "stat".toList name e)
  | .ok p =>
    match fs.get p with
    | none => .error (.pathError "stat".toList name .ENOENT)
    | some n => .ok n

/-- The walk of `os.MkdirAll`: like `walk`, but a name that is missing in an
existing directory is created as a directory; at the end the path must be a
directory. The tree built so far is returned with the error. -/
def mkdirWalk : List Str → FS → Loc → Option Errno × FS
  | [], fs, cur =>
    match fs.get cur with
    | none => (some .ENOENT, fs)
    | some (.file _) => (some .ENOTDIR, fs)
    | some .dir => (none, fs)
  | e :: es, fs, cur =>
    match fs.get cur with
    | none => (some .ENOENT, fs)
    | some (.file _) => (some .ENOTDIR, fs)
    | some .dir =>
      let nxt := stepLoc cur e
      if isName e ∧ fs.get nxt = none then mkdirWalk es (fs.set nxt .dir) nxt
      else mkdirWalk es fs nxt

/-- Go `os.MkdirAll(path, 0755)`: "creates a directory named path, along with any
necessary parents, and returns nil, or else returns an error. If path is
already a directory, MkdirAll does nothing and returns nil." -/
def os_MkdirAll (fs : FS) (path : Str) : Option GoError × FS :=
  if path = [] then (some (.pathError "mkdir".toList path .ENOENT), fs)
  else
    match mkdirWalk (pathElems path) fs (startLoc fs path) with
    | (some e, fs1) => (some (.pathError "mkdir".toList path e), fs1)
    | (none, fs1) => (none, fs1)

/-- Go `os.OpenFile(name, os.O_CREATE|os.O_RDWR|os.O_TRUNC, 0755)`: the file is
created if missing and emptied if present; a directory cannot be opened for
writing. The handle is the location of the file. -/
def os_OpenFile (fs : FS) (name : Str) : Except GoError (Loc × FS) :=
  match namei fs name with
  | .error e => .error (.pathError "open".toList name e)
  | .ok p =>
    match fs.get p with
    | some .dir => .error (.pathError "open".toList name .EISDIR)
    | _ => .ok (p, fs.set p (.file []))

/-- Go `os.RemoveAll(path)`: "removes path and any children it contains. It
removes everything it can but returns the first error it encounters. If the
path does not exist, RemoveAll returns nil (no error)." A path whose last
element is not a name is refused, and so is one that leads through a
regular file. -/
def os_RemoveAll (fs : FS) (path : Str) : Option GoError × FS :=
  if path = [] then (none, fs)
  else if (pathElems path).getLast?.map isName ≠ some true then
    (some (.pathError "RemoveAll".toList path .EINVAL), fs)
  else
    match namei fs path with
    | .error .ENOENT => (none, fs)
    | .error e => (some (.pathError "unlinkat".toList path e), fs)
    | .ok p =>
      if fs.stays p then (some (.pathError "unlinkat".toList path .EACCES), fs.removeTree p)
      else (none, fs.removeTree p)

/-! ## Readers, the network, the process -/

/-- An `io.Reader` read to its end: the bytes it delivers, then `io.EOF`
(`err = none`) or a read error. -/
structure Stream where
  data : Bytes
  err : Option GoError
deriving DecidableEq

/-- Go `*http.Response`, as far as the program looks at it. -/
structure Response where
  StatusCode : Int
  Status : Str
  Body : Stream
deriving DecidableEq

/-- Go `*zip.File`: the name of the entry and what `Open()` gives. -/
structure ZipFile where
  Name : Str
  Open : Except GoError Stream

/-- The `Data` field of `modInfoResp`; times are kept as text. -/
structure modInfoData where
  ID : Str
  Name : Str
  ShortDescription : Str
  FullDescription : Str
  Logo : Str
  SourceURL : Str
  CreatorID : Str
  Approved : Bool
  Views : Int
  Downloads : Int
  Hotness : Int
  Popularity : Int
  UpdatedAt : Str
  CreatedAt : Str
deriving DecidableEq

/-- The answer of the registry to a question about one mod. -/
structure modInfoResp where
  Success : Bool
  Data : modInfoData
deriving DecidableEq

/-- The state of the world around the process. -/
structure World where
  /-- The filesystem. -/
  fs : FS
  /-- The environment variables of the process. -/
  environ : Str → Option Str
  /-- The remote side: the answer to a GET, given the requests made before. -/
  net : List Str → Str → Except GoError Response
  /-- The URLs requested so far, oldest first. -/
  requests : List Str
  /-- The lines logged so far (standard error), oldest first. -/
  log : List Str

/-- Library functions whose results the program only passes on. -/
structure Lib where
  /-- Go `strconv.Quote`, the `%q` verb of package fmt. -/
  quote : Str → Str
  /-- Go `zip.NewReader(bytes.NewReader(buf), int64(len(buf)))`: the entries `r.File`. -/
  zipNewReader : Bytes → Except GoError (List ZipFile)
  /-- Go `json.NewDecoder(body).Decode(&respData)` for a `modInfoResp`. -/
  jsonDecode : Stream → Except GoError modInfoResp

/-- What a call leaves behind: it returns (with a value), or the process is
ended by `log.Fatal` with a message. -/
inductive Res (α : Type)
  | ret (a : α) (w : World)
  | fatal (msg : Str) (w : World)

/-- The world a call ends in. -/
def Res.world {α : Type} : Res α → World
  | .ret _ w => w
  | .fatal _ w => w

/-- The value a call returns, if it returns. -/
def Res.value {α : Type} : Res α → Option α
  | .ret a _ => some a
  | .fatal _ _ => none

/-- Whether the call ended the process. -/
def Res.isFatal {α : Type} : Res α → Bool
  | .ret _ _ => false
  | .fatal _ _ => true

/-- Go `os.Getenv(key)`: the empty string when the variable is not set. -/
def os_Getenv (w : World) (key : Str) : Str := (w.environ key).getD []

/-- Go `http.Get(url)`. -/
def http_Get (w : World) (url : Str) : Except GoError Response × World :=
  (w.net w.requests url, { w with requests := w.requests ++ [url] })

/-- Go `log.Printf` and `log.Println`: one more line on standard error. -/
def log_Print (w : World) (line : Str) : World := { w with log := w.log ++ [line] }

/-- Go `ioutil.ReadAll(r)`. -/
def ioutil_ReadAll (r : Stream) : Except GoError Bytes :=
  match r.err with
  | some e => .error e
  | none => .ok r.data

/-- Go `io.Copy(file, r)` into a file just opened with `O_TRUNC`: the bytes read
are in the file, also when reading ends with an error. -/
def io_Copy (fs : FS) (file : Loc) (r : Stream) : Option GoError × FS :=
  (r.err, fs.set file (.file r.data))


/-! ## main.go -/

/-- The mod descriptor. -/
structure Mod where
  id : Str
  version : Str
deriving DecidableEq

/-- The body of `Mod.Name`.
```go
res, err := http.Get(fmt.Sprintf("https://api.ficsit.app/v1/mod/%s", m.id))
if err != nil { return m.id }
var respData modInfoResp
if err := json.NewDecoder(res.Body).Decode(&respData); err != nil { return m.id }
if respData.Data.Name == "" { return m.id }
return respData.Data.Name
``` -/
def Mod.Name (L : Lib) (m : Mod) (w : World) : Str × World :=
  match http_Get w ("https://api.ficsit.app/v1/mod/".toList ++ m.id) with
  | (.error _, w1) => (m.id, w1)
  | (.ok res, w1) =>
    match L.jsonDecode res.Body with
    | .error _ => (m.id, w1)
    | .ok respData =>
      if respData.Data.Name = [] then (m.id, w1)
      else (respData.Data.Name, w1)

/-- The body of `Mod.downloadURL`. -/
def Mod.downloadURL (m : Mod) : Str :=
  "https://api.ficsit.app/v1/mod/".toList ++ m.id ++ "/versions/".toList ++ m.version
    ++ "/download".toList

/-- The `for _, mod := range strings.Split(modIDs, ",")` loop of `parseMods`,
with the slice `m` built so far.
```go
modParts := strings.SplitN(mod, ":", 2)
if len(modParts) != 2 { log.Fatal("Invalid modID given") }
modID, modVersion := modParts[0], modParts[1]
m = append(m, Mod{modID, modVersion})
``` -/
def parseModsLoop : List Str → List Mod → World → Res (List Mod)
  | [], m, w => .ret m w
  | mod :: rest, m, w =>
    let modParts := strings_SplitN mod ':' 2
    if modParts.length ≠ 2 then .fatal "Invalid modID given".toList w
    else
      let modID := modParts.getD 0 []
      let modVersion := modParts.getD 1 []
      parseModsLoop rest (m ++ [{ id := modID, version := modVersion }]) w

/-- The body of `parseMods`. -/
def parseMods (w : World) : Res (List Mod) :=
  let modIDs := os_Getenv w "MOD_IDS".toList
  if modIDs = [] then .ret [] w
  else parseModsLoop (strings_Split modIDs ',') [] w

/-- The body of `mkdirAllIfNotExists`.
```go
if _, err := os.Stat(name); errors.Is(err, os.ErrNotExist) {
    err := os.MkdirAll(name, 0755)
    if err != nil { log.Fatal(err) }
}
``` -/
def mkdirAllIfNotExists (name : Str) (w : World) : Res Unit :=
  match os_Stat w.fs name with
  | .ok _ => .ret () w
  | .error err =>
    if isNotExist err then
      match os_MkdirAll w.fs name with
      | (some err1, fs1) => .fatal err1.Error { w with fs := fs1 }
      | (none, fs1) => .ret () { w with fs := fs1 }
    else .ret () w

/-- The body of `latestReleaseUrl`. -/
def latestReleaseUrl (owner repo fileName : Str) : Str :=
  "https://github.com/".toList ++ owner ++ "/".toList ++ repo
    ++ "/releases/latest/download/".toList ++ fileName

/-- The error of a status other than 200:
`fmt.Errorf("invalid status: %q: %s", url, resp.Status)`. -/
def invalidStatus (L : Lib) (url : Str) (resp : Response) : GoError :=
  .errorf ("invalid status: ".toList ++ L.quote url ++ ": ".toList ++ resp.Status)

/-- The closure `writeZipFile` of `downloadZipFile`, which captures `dst`.
```go
dir, _ := path.Split(zipFile.Name)
if dir != "" { mkdirAllIfNotExists(path.Join(dst, dir)) }
zipReader, err := zipFile.Open()
if err != nil { return err }
filePath := path.Join(dst, zipFile.Name)
log.Printf("writing file %q", filePath)
file, err := os.OpenFile(filePath, os.O_CREATE|os.O_RDWR|os.O_TRUNC, 0755)
if err != nil { return err }
_, err = io.Copy(file, zipReader)
if err != nil { return err }
return nil
``` -/
def writeZipFile (L : Lib) (dst : Str) (zipFile : ZipFile) (w : World) : Res (Option GoError) :=
  let dir := (path_Split zipFile.Name).1
  match (if dir ≠ [] then mkdirAllIfNotExists (path_Join [dst, dir]) w else .ret () w) with
  | .fatal msg w1 => .fatal msg w1
  | .ret _ w1 =>
    match zipFile.Open with
    | .error err => .ret (some err) w1
    | .ok zipReader =>
      let filePath := path_Join [dst, zipFile.Name]
      let w2 := log_Print w1 ("writing file ".toList ++ L.quote filePath)
      match os_OpenFile w2.fs filePath with
      | .error err => .ret (some err) w2
      | .ok (file, fs3) =>
        match io_Copy fs3 file zipReader with
        | (some err, fs4) => .ret (some err) { w2 with fs := fs4 }
        | (none, fs4) => .ret none { w2 with fs := fs4 }

/-- The loop `for _, entry := range r.File` of `downloadZipFile`: the first
error is returned, `nil` after the last entry. -/
def writeZipFiles (L : Lib) (dst : Str) : List ZipFile → World → Res (Option GoError)
  | [], w => .ret none w
  | entry :: rest, w =>
    match writeZipFile L dst entry w with
    | .fatal msg w1 => .fatal msg w1
    | .ret (some err) w1 => .ret (some err) w1
    | .ret none w1 => writeZipFiles L dst rest w1

/-- The body of `downloadZipFile`. -/
def downloadZipFile (L : Lib) (url fileName dst : Str) (w : World) : Res (Option GoError) :=
  let w0 := log_Print w ("fetching ".toList ++ L.quote fileName ++ " to ".toList ++ L.quote dst)
  match http_Get w0 url with
  | (.error err, w1) => .ret (some err) w1
  | (.ok resp, w1) =>
    if resp.StatusCode ≠ 200 then .ret (some (invalidStatus L url resp)) w1
    else
      match ioutil_ReadAll resp.Body with
      | .error err => .ret (some err) w1
      | .ok buf =>
        match L.zipNewReader buf with
        | .error err => .ret (some err) w1
        | .ok r =>
          match mkdirAllIfNotExists dst w1 with
          | .fatal msg w2 => .fatal msg w2
          | .ret _ w2 => writeZipFiles L dst r w2

/-- The body of `downloadLatestZipFile`. -/
def downloadLatestZipFile (L : Lib) (owner repo fileName dst : Str) (w : World) :
    Res (Option GoError) :=
  downloadZipFile L (latestReleaseUrl owner repo fileName) fileName dst w

/-- The body of `downloadLatestFile`. -/
def downloadLatestFile (L : Lib) (owner repo fileName dst : Str) (w : World) :
    Res (Option GoError) :=
  let url := latestReleaseUrl owner repo fileName
  let filePath := path_Join [dst, fileName]
  let w0 := log_Print w ("fetching ".toList ++ L.quote fileName ++ " to ".toList ++ L.quote filePath)
  match http_Get w0 url with
  | (.error err, w1) => .ret (some err) w1
  | (.ok resp, w1) =>
    if resp.StatusCode ≠ 200 then .ret (some (invalidStatus L url resp)) w1
    else
      match os_OpenFile w1.fs filePath with
      | .error err => .ret (some err) w1
      | .ok (file, fs2) =>
        match io_Copy fs2 file resp.Body with
        | (some err, fs3) => .ret (some err) { w1 with fs := fs3 }
        | (none, fs3) => .ret none { w1 with fs := fs3 }

/-- The loop `for _, mod := range mods` of `main`; the arguments of
`downloadZipFile` are evaluated left to right, so the name is asked for twice. -/
def downloadMods (L : Lib) (modsPath : Str) : List Mod → World → Res Unit
  | [], w => .ret () w
  | mod :: rest, w =>
    let (name1, w1) := mod.Name L w
    let (name2, w2) := mod.Name L w1
    match downloadZipFile L mod.downloadURL name1 (path_Join [modsPath, name2]) w2 with
    | .fatal msg w3 => .fatal msg w3
    | .ret (some err) w3 => .fatal err.Error w3
    | .ret none w3 => downloadMods L modsPath rest w3

/-- A step of `main` that ends the process on an error:
`if err != nil { log.Fatal(err) }`. -/
def orFatal (r : Res (Option GoError)) (next : World → Res Unit) : Res Unit :=
  match r with
  | .fatal msg w => .fatal msg w
  | .ret (some err) w => .fatal err.Error w
  | .ret none w => next w

/-- The body of `main`; `gameRoot` is the value of the flag `-gameroot`. -/
def main (L : Lib) (gameRoot : Str) (w : World) : Res Unit :=
  let modsPath := path_Join [gameRoot, "FactoryGame/Mods".toList]
  match mkdirAllIfNotExists modsPath w with
  | .fatal msg w1 => .fatal msg w1
  | .ret _ w1 =>
    match parseMods w1 with
    | .fatal msg w2 => .fatal msg w2
    | .ret mods w2 =>
      if mods.length = 0 then
        let w3 := log_Print w2 "No Mod IDs given. Deleting all!".toList
        match os_RemoveAll w3.fs modsPath with
        | (some err, fs4) => .fatal err.Error { w3 with fs := fs4 }
        | (none, fs4) => .ret () { w3 with fs := fs4 }
      else
        let binariesPath := path_Join [gameRoot, "FactoryGame/Binaries/Win64/".toList]
        let owner := "satisfactorymodding".toList
        orFatal (downloadLatestFile L owner "SatisfactoryModBootstrapper".toList
          "msdia140.dll".toList binariesPath w2) fun w3 =>
        orFatal (downloadLatestFile L owner "SatisfactoryModBootstrapper".toList
          "xinput1_3.dll".toList binariesPath w3) fun w4 =>
        orFatal (downloadLatestZipFile L owner "SatisfactoryModLoader".toList
          "SML.zip".toList (path_Join [modsPath, "SML".toList]) w4) fun w5 =>
        downloadMods L modsPath mods w5

/-! ## Words of the specification, and worlds to run the program in -/

/-- The text of a token before its first `:`. -/
def idOfToken (t : Str) : Str := t.takeWhile (· ≠ ':')

/-- All the text of a token after its first `:`. -/
def versionOfToken (t : Str) : Str := (t.dropWhile (· ≠ ':')).drop 1

/-- The Mod a token stands for. -/
def modOfToken (t : Str) : Mod := { id := idOfToken t, version := versionOfToken t }

/-- The token `id:version` of a Mod. -/
def tokenOfMod (m : Mod) : Str := m.id ++ ':' :: m.version

/-- A filesystem that holds the directories `dirs` and the files `files`,
with the root as working directory. -/
def treeOf (dirs : List Loc) (files : List (Loc × Bytes)) : FS :=
  { cwd := []
    node := fun p =>
      match files.lookup p with
      | some data => some (.file data)
      | none => if p ∈ dirs then some .dir else none
    pinned := [] }

/-- A library whose zip reader finds the entries `entries` in every buffer. -/
def libOf (entries : Except GoError (List ZipFile)) : Lib :=
  { quote := fun s => '"' :: s ++ ['"']
    zipNewReader := fun _ => entries
    jsonDecode := fun _ => .error (.lib "unexpected end of JSON input".toList) }

/-- A world with `MOD_IDS` set to `modIDs` (not set for `none`), the
filesystem `fs`, and a remote side that answers every request with `answer`. -/
def worldOf (modIDs : Option Str) (fs : FS) (answer : Except GoError Response) : World :=
  { fs := fs
    environ := fun k => if k = "MOD_IDS".toList then modIDs else none
    net := fun _ _ => answer
    requests := []
    log := [] }

/-- The answer of a remote side that cannot be reached. -/
def refused : Except GoError Response := .error (.lib "connection refused".toList)

/-- An answer "404 Not Found". -/
def notFound : Response :=
  { StatusCode := 404, Status := "404 Not Found".toList, Body := { data := [], err := none } }

/-- An answer "200 OK" with the body `body`. -/
def okWith (body : Bytes) : Response :=
  { StatusCode := 200, Status := "200 OK".toList, Body := { data := body, err := none } }

/-- The directories `/g`, `/g/FactoryGame`, `/g/FactoryGame/Mods` and
`/g/FactoryGame/Mods/X`. -/
def gameDirs : List Loc :=
  [["g".toList], ["g".toList, "FactoryGame".toList],
   ["g".toList, "FactoryGame".toList, "Mods".toList],
   ["g".toList, "FactoryGame".toList, "Mods".toList, "X".toList]]

/-- A zip entry with the name `name` that reads as `data`. -/
def entryOf (name : Str) (data : Bytes) : ZipFile :=
  { Name := name, Open := .ok { data := data, err := none } }

/-- Where a path leads from the working directory `cwd` when every directory
on the way exists: the file a path names. -/
def lexLoc (cwd : Loc) (path : Str) : Loc :=
  (pathElems path).foldl stepLoc (if path.head? = some '/' then [] else cwd)

/-- Everything that is in `fs` is in `fs2`, unchanged; `fs2` may hold more. -/
def FS.Grows (fs fs2 : FS) : Prop :=
  fs2.cwd = fs.cwd ∧ ∀ x n, fs.get x = some n → fs2.get x = some n

/-- The directories of `fs` are directories of `fs2`. -/
def FS.DirsKept (fs fs2 : FS) : Prop :=
  fs2.cwd = fs.cwd ∧ ∀ x, fs.get x = some .dir → fs2.get x = some .dir

/-- A tree with the mods directory `/g/FactoryGame/Mods`, the directory `X`
in it and the file `X/old.dll`, and the file `/g/keep.txt` outside. -/
def modsTree : FS :=
  treeOf gameDirs
    [(["g".toList, "FactoryGame".toList, "Mods".toList, "X".toList, "old.dll".toList], [1, 2]),
     (["g".toList, "keep.txt".toList], [7])]

/-- The same tree, with the file `X/old.dll` of the mods directory one that
the process may not delete. -/
def pinnedModsTree : FS :=
  { modsTree with
    pinned := [["g".toList, "FactoryGame".toList, "Mods".toList, "X".toList, "old.dll".toList]] }

/-- A zip entry with the name `name` whose `Open()` fails with `zip.ErrFormat`:
the directory of the archive lists it, its local header is not valid. -/
def brokenEntry (name : Str) : ZipFile :=
  { Name := name, Open := .error (.lib "zip: not a valid zip file".toList) }

/-- The places the resolution of a path leads through, from `cur` on. -/
def visitedLocs : Loc → List Str → List Loc
  | cur, [] => [cur]
  | cur, e :: es => cur :: visitedLocs (stepLoc cur e) es

/-! ## The shortest form of a path, in the words of package path

`path.Clean` is documented by four rules: replace multiple slashes with a
single slash; eliminate each `.` element; eliminate each inner `..` element
along with the element that precedes it; eliminate `..` elements that begin
a rooted path. -/

/-- The elements of a cleaned path: `ups` times `..`, then names. -/
structure Norm where
  ups : Nat
  names : List Str
deriving DecidableEq

/-- The elements of a cleaned path, in order. -/
def Norm.elems (N : Norm) : List Str := List.replicate N.ups ['.', '.'] ++ N.names

/-- One more element read, by the four rules. -/
def Norm.push (rooted : Bool) (N : Norm) (e : Str) : Norm :=
  if e = [] ∨ e = ['.'] then N
  else if e = ['.', '.'] then
    if N.names ≠ [] then { N with names := N.names.dropLast }
    else if rooted then N
    else { N with ups := N.ups + 1 }
  else { N with names := N.names ++ [e] }

/-- The elements of a path, cleaned by the four rules. -/
def normalize (rooted : Bool) (path : Str) : Norm :=
  (pathElems path).foldl (Norm.push rooted) { ups := 0, names := [] }

/-- The text of a path with the elements `els`. -/
def render (rooted : Bool) (els : List Str) : Str :=
  (if rooted then ['/'] else []) ++ ['/'].intercalate els


/-- What the loop of `path.Clean` keeps true: the buffer is the text of the
elements read so far, cleaned, and `dotdot` is the length of its `..` part. -/
def CleanInv (rooted : Bool) (st : CleanState) (N : Norm) : Prop :=
  (rooted = true → N.ups = 0)
    ∧ (∀ n ∈ N.names, isName n = true ∧ '/' ∉ n)
    ∧ st.out = render rooted N.elems
    ∧ st.dotdot = (render rooted (List.replicate N.ups ['.', '.'])).length

/-- The elements of `rest` read on top of `N`. -/
def readElems (rooted : Bool) (N : Norm) (rest : Str) : Norm :=
  (pathElems rest).foldl (Norm.push rooted) N

/-- The shape of a cleaned path that names something: its elements are `..`
elements (after the empty element of a rooted path) and then names, at least
one. -/
def Shaped (path : Str) : Prop :=
  path ≠ [] ∧ ∃ pre names, pathElems path = pre ++ names
    ∧ (∀ e ∈ pre, isName e = false) ∧ (∀ n ∈ names, isName n = true) ∧ names ≠ []

/-! ## Splitting -/

theorem strings_Index_eq_none {c : Char} : ∀ {s : Str}, strings_Index s c = none ↔ c ∉ s
  | [] => by simp [strings_Index]
  | x :: xs => by
    by_cases h : x = c
    · simp [strings_Index, h]
    · have ih := strings_Index_eq_none (c := c) (s := xs)
      simp [strings_Index, h, ih, Ne.symm h]

theorem strings_Index_eq_some {c : Char} : ∀ {s : Str} {m : Nat}, strings_Index s c = some m →
    s.take m = s.takeWhile (· ≠ c) ∧ s.drop m = s.dropWhile (· ≠ c) ∧ c ∈ s
  | [], m, h => by simp [strings_Index] at h
  | x :: xs, m, h => by
    by_cases hx : x = c
    · simp [strings_Index, hx] at h
      subst h
      simp [hx]
    · simp only [strings_Index, hx, if_false, Option.map_eq_some'] at h
      obtain ⟨k, hk, rfl⟩ := h
      obtain ⟨h1, h2, h3⟩ := strings_Index_eq_some hk
      simp [hx, h1, h2, h3]

theorem splitOnChar_ne_nil (sep : Char) : ∀ s : Str, splitOnChar sep s ≠ []
  | [] => by simp [splitOnChar]
  | c :: cs => by
    have ih := splitOnChar_ne_nil sep cs
    unfold splitOnChar
    split
    · simp
    · split <;> simp

theorem splitOnChar_of_not_mem {sep : Char} : ∀ {s : Str}, sep ∉ s → splitOnChar sep s = [s]
  | [], _ => by simp [splitOnChar]
  | c :: cs, h => by
    have hc : c ≠ sep := fun e => h (by simp [e])
    have hcs : sep ∉ cs := fun e => h (by simp [e])
    simp [splitOnChar, hc, splitOnChar_of_not_mem hcs]

theorem splitOnChar_cut {sep : Char} : ∀ {s : Str}, sep ∈ s →
    splitOnChar sep s = s.takeWhile (· ≠ sep) :: splitOnChar sep ((s.dropWhile (· ≠ sep)).drop 1)
  | [], h => by simp at h
  | c :: cs, h => by
    by_cases hc : c = sep
    · simp [splitOnChar, hc]
    · have hcs : sep ∈ cs := by
        rcases List.mem_cons.1 h with e | e
        · exact absurd e.symm hc
        · exact e
      simp [splitOnChar, hc, splitOnChar_cut hcs]

theorem strings_Count_dropWhile {sep : Char} : ∀ {s : Str}, sep ∈ s →
    strings_Count s sep = strings_Count ((s.dropWhile (· ≠ sep)).drop 1) sep + 1
  | [], h => by simp at h
  | c :: cs, h => by
    by_cases hc : c = sep
    · simp [strings_Count, hc, Nat.add_comm]
    · have hcs : sep ∈ cs := by
        rcases List.mem_cons.1 h with e | e
        · exact absurd e.symm hc
        · exact e
      simp [strings_Count, hc, strings_Count_dropWhile hcs]

theorem genSplitLoop_eq_splitOnChar (sep : Char) : ∀ (k : Nat) (s : Str),
    strings_Count s sep ≤ k → genSplitLoop sep k s = splitOnChar sep s
  | 0, s, h => by
    have hs : sep ∉ s := by
      intro hmem
      have := strings_Count_dropWhile hmem
      omega
    simp [genSplitLoop, splitOnChar_of_not_mem hs]
  | k + 1, s, h => by
    unfold genSplitLoop
    cases hi : strings_Index s sep with
    | none =>
      have hs : sep ∉ s := strings_Index_eq_none.1 hi
      simp [splitOnChar_of_not_mem hs]
    | some m =>
      obtain ⟨h1, h2, h3⟩ := strings_Index_eq_some hi
      have hc := strings_Count_dropWhile h3
      have hd : s.drop (m + 1) = (s.dropWhile (· ≠ sep)).drop 1 := by
        rw [← h2, List.drop_drop, Nat.add_comm]
      simp only [h1, hd]
      rw [splitOnChar_cut h3, genSplitLoop_eq_splitOnChar sep k _ (by omega)]

theorem strings_Count_le_length (sep : Char) : ∀ s : Str, strings_Count s sep ≤ s.length
  | [] => by simp [strings_Count]
  | c :: cs => by
    have := strings_Count_le_length sep cs
    simp only [strings_Count, List.length_cons]
    split <;> omega

theorem strings_Split_eq (s : Str) (sep : Char) : strings_Split s sep = splitOnChar sep s := by
  have hle := strings_Count_le_length sep s
  unfold strings_Split genSplit
  have h1 : ¬ ((-1 : Int) = 0) := by decide
  have h2 : (-1 : Int) < 0 := by decide
  simp only [h1, h2, if_true, if_false]
  rw [if_neg (by omega)]
  exact genSplitLoop_eq_splitOnChar sep _ s (by omega)

theorem strings_SplitN_two (t : Str) (sep : Char) :
    strings_SplitN t sep 2 =
      if sep ∈ t then [t.takeWhile (· ≠ sep), (t.dropWhile (· ≠ sep)).drop 1] else [t] := by
  unfold strings_SplitN genSplit
  have h1 : ¬ ((2 : Int) = 0) := by decide
  have h2 : ¬ ((2 : Int) < 0) := by decide
  have h3 : (2 : Int).toNat = 2 := by decide
  simp only [h1, h2, h3, if_false]
  by_cases hm : sep ∈ t
  · have hlen : 0 < t.length := List.length_pos_of_mem hm
    rw [if_neg (by omega), if_pos hm]
    show genSplitLoop sep 1 t = _
    unfold genSplitLoop
    cases hi : strings_Index t sep with
    | none => exact absurd hm (strings_Index_eq_none.1 hi)
    | some m =>
      obtain ⟨e1, e2, _⟩ := strings_Index_eq_some hi
      have hd : t.drop (m + 1) = (t.dropWhile (· ≠ sep)).drop 1 := by
        rw [← e2, List.drop_drop, Nat.add_comm]
      simp [genSplitLoop, e1, hd]
  · rw [if_neg hm]
    have hi : strings_Index t sep = none := strings_Index_eq_none.2 hm
    split
    · cases t with
      | nil => simp [genSplitLoop]
      | cons a l => simp [genSplitLoop, hi]
    · show genSplitLoop sep 1 t = _
      simp [genSplitLoop, hi]

theorem splitOnChar_length (sep : Char) : ∀ s : Str,
    (splitOnChar sep s).length = s.count sep + 1
  | [] => by simp [splitOnChar]
  | c :: cs => by
    have ih := splitOnChar_length sep cs
    by_cases hc : c = sep
    · simp [splitOnChar, hc, ih]
    · have hne := splitOnChar_ne_nil sep cs
      have : (splitOnChar sep (c :: cs)).length = (splitOnChar sep cs).length := by
        cases h : splitOnChar sep cs with
        | nil => exact absurd h hne
        | cons e es => simp [splitOnChar, hc, h]
      rw [this, ih, List.count_cons_of_ne (Ne.symm hc)]

theorem splitOnChar_intercalate (sep : Char) : ∀ s : Str,
    [sep].intercalate (splitOnChar sep s) = s
  | [] => by simp [splitOnChar, List.intercalate]
  | c :: cs => by
    have ih := splitOnChar_intercalate sep cs
    have hne := splitOnChar_ne_nil sep cs
    unfold splitOnChar
    by_cases hc : c = sep
    · rw [if_pos hc]
      cases h : splitOnChar sep cs with
      | nil => exact absurd h hne
      | cons e es =>
        rw [h] at ih
        simp [List.intercalate, List.intersperse] at ih ⊢
        simp [hc, ih]
    · rw [if_neg hc]
      cases h : splitOnChar sep cs with
      | nil => exact absurd h hne
      | cons e es =>
        rw [h] at ih
        cases es with
        | nil => simp [List.intercalate] at ih ⊢; exact ih
        | cons e2 es2 =>
          simp [List.intercalate, List.intersperse] at ih ⊢
          exact ih

theorem splitOnChar_not_mem (sep : Char) : ∀ (s : Str) (t : Str),
    t ∈ splitOnChar sep s → sep ∉ t
  | [], t, h => by
    simp [splitOnChar] at h
    simp [h]
  | c :: cs, t, h => by
    have ih := splitOnChar_not_mem sep cs
    have hne := splitOnChar_ne_nil sep cs
    unfold splitOnChar at h
    by_cases hc : c = sep
    · rw [if_pos hc] at h
      rcases List.mem_cons.1 h with e | e
      · simp [e]
      · exact ih t e
    · rw [if_neg hc] at h
      cases hs : splitOnChar sep cs with
      | nil => exact absurd hs hne
      | cons e es =>
        rw [hs] at h ih
        rcases List.mem_cons.1 h with e1 | e1
        · subst e1
          have := ih e (by simp)
          simp [Ne.symm hc, this]
        · exact ih t (by simp [e1])


/-! ## parseMods -/

theorem parseModsLoop_ok (w : World) : ∀ (ts : List Str) (m : List Mod),
    (∀ t ∈ ts, ':' ∈ t) → parseModsLoop ts m w = .ret (m ++ ts.map modOfToken) w
  | [], m, _ => by simp [parseModsLoop]
  | t :: ts, m, h => by
    have ht : ':' ∈ t := h t (by simp)
    have ih := parseModsLoop_ok w ts (m ++ [modOfToken t]) (fun u hu => h u (by simp [hu]))
    simp only [parseModsLoop, strings_SplitN_two, if_pos ht]
    simpa [modOfToken, idOfToken, versionOfToken] using ih

theorem parseModsLoop_fatal (w : World) : ∀ (ts : List Str) (m : List Mod),
    (∃ t ∈ ts, ':' ∉ t) → parseModsLoop ts m w = .fatal "Invalid modID given".toList w
  | [], m, h => by simp at h
  | t :: ts, m, h => by
    by_cases ht : ':' ∈ t
    · have h2 : ∃ u ∈ ts, ':' ∉ u := by
        obtain ⟨u, hu, hn⟩ := h
        rcases List.mem_cons.1 hu with e | e
        · exact absurd (e ▸ ht) hn
        · exact ⟨u, e, hn⟩
      have ih := parseModsLoop_fatal w ts (m ++ [modOfToken t]) h2
      simp only [parseModsLoop, strings_SplitN_two, if_pos ht]
      simpa [modOfToken, idOfToken, versionOfToken] using ih
    · simp [parseModsLoop, strings_SplitN_two, if_neg ht]

theorem parseModsLoop_cases (ts : List Str) :
    (∀ t ∈ ts, ':' ∈ t) ∨ (∃ t ∈ ts, ':' ∉ t) := by
  by_cases h : ∀ t ∈ ts, ':' ∈ t
  · exact Or.inl h
  · right
    push_neg at h
    exact h

theorem parseMods_eq_map (w : World)
    (hne : os_Getenv w "MOD_IDS".toList ≠ [])
    (hall : ∀ t ∈ strings_Split (os_Getenv w "MOD_IDS".toList) ',', ':' ∈ t) :
    parseMods w
      = .ret ((strings_Split (os_Getenv w "MOD_IDS".toList) ',').map modOfToken) w := by
  unfold parseMods
  simp only [if_neg hne]
  simpa using parseModsLoop_ok w _ [] hall

/-- C2: for a non-empty MOD_IDS in which every comma-separated token holds a
`:`, parseMods returns one Mod per token, in the order of the tokens, the id
being the text before the first `:` of the token and the version all the text
after it; the Mods are as many as the commas plus one. The tokens are the
pieces of MOD_IDS between its commas. -/
theorem parseMods_valid (w : World)
    (hne : os_Getenv w "MOD_IDS".toList ≠ [])
    (hall : ∀ t ∈ strings_Split (os_Getenv w "MOD_IDS".toList) ',', ':' ∈ t) :
    parseMods w
        = .ret ((strings_Split (os_Getenv w "MOD_IDS".toList) ',').map modOfToken) w
      ∧ ((strings_Split (os_Getenv w "MOD_IDS".toList) ',').map modOfToken).length
        = (os_Getenv w "MOD_IDS".toList).count ',' + 1
      ∧ [','].intercalate (strings_Split (os_Getenv w "MOD_IDS".toList) ',')
        = os_Getenv w "MOD_IDS".toList
      ∧ ∀ t ∈ strings_Split (os_Getenv w "MOD_IDS".toList) ',', ',' ∉ t := by
  refine ⟨parseMods_eq_map w hne hall, ?_, ?_, ?_⟩
  · rw [List.length_map, strings_Split_eq, splitOnChar_length]
  · rw [strings_Split_eq, splitOnChar_intercalate]
  · rw [strings_Split_eq]
    exact splitOnChar_not_mem ',' _

/-- The instance of C2 at `MOD_IDS="abc:1.0,SML:^3.1:x"`. -/
theorem parseMods_valid_witness :
    os_Getenv (worldOf (some "abc:1.0,SML:^3.1:x".toList) (treeOf [] []) refused) "MOD_IDS".toList ≠ []
      ∧ (parseMods (worldOf (some "abc:1.0,SML:^3.1:x".toList) (treeOf [] []) refused)).value
        = some [{ id := "abc".toList, version := "1.0".toList },
                { id := "SML".toList, version := "^3.1:x".toList }] := by
  refine ⟨by decide, ?_⟩
  rw [(parseMods_valid (worldOf (some "abc:1.0,SML:^3.1:x".toList) (treeOf [] []) refused)
    (by decide) (by decide)).1]
  decide

/-- C3, as stated, fails for the empty MOD_IDS: `strings.Split("", ",")` is the
one token `""`, which holds no `:`, and parseMods returns the empty list. -/
theorem parseMods_empty_not_fatal :
    (∃ t ∈ strings_Split (os_Getenv (worldOf none (treeOf [] []) refused) "MOD_IDS".toList) ',',
        ':' ∉ t)
      ∧ (parseMods (worldOf none (treeOf [] []) refused)).isFatal = false
      ∧ (parseMods (worldOf none (treeOf [] []) refused)).value = some [] := by
  decide

/-- C3, amended: parseMods ends the process exactly when MOD_IDS is not empty
and one of its comma-separated tokens holds no `:`, wherever that token
stands; it then reports "Invalid modID given" and returns no list. -/
theorem parseMods_fatal_iff (w : World) :
    ((parseMods w).isFatal = true ↔
        (os_Getenv w "MOD_IDS".toList ≠ []
          ∧ ∃ t ∈ strings_Split (os_Getenv w "MOD_IDS".toList) ',', ':' ∉ t))
      ∧ ((parseMods w).isFatal = true →
          parseMods w = .fatal "Invalid modID given".toList w ∧ (parseMods w).value = none) := by
  by_cases hne : os_Getenv w "MOD_IDS".toList = []
  · have h : parseMods w = .ret [] w := by
      unfold parseMods
      simp only [if_pos hne]
    rw [h]
    simp only [Res.isFatal]
    exact ⟨⟨fun hf => by simp at hf, fun hf => absurd hne hf.1⟩, fun hf => by simp at hf⟩
  · rcases parseModsLoop_cases (strings_Split (os_Getenv w "MOD_IDS".toList) ',') with hall | hex
    · have h : parseMods w = .ret ((strings_Split (os_Getenv w "MOD_IDS".toList) ',').map modOfToken) w :=
        parseMods_eq_map w hne hall
      rw [h]
      simp only [Res.isFatal]
      refine ⟨⟨fun hf => by simp at hf, fun ⟨_, t, ht, hn⟩ => absurd (hall t ht) hn⟩,
        fun hf => by simp at hf⟩
    · have h : parseMods w = .fatal "Invalid modID given".toList w := by
        unfold parseMods
        simp only [if_neg hne]
        exact parseModsLoop_fatal w _ [] hex
      rw [h]
      exact ⟨⟨fun _ => ⟨hne, hex⟩, fun _ => rfl⟩, fun _ => ⟨rfl, rfl⟩⟩


theorem splitOnChar_append_sep {sep : Char} : ∀ {a : Str} (b : Str), sep ∉ a →
    splitOnChar sep (a ++ sep :: b) = a :: splitOnChar sep b
  | [], b, _ => by simp [splitOnChar]
  | c :: cs, b, h => by
    have hc : c ≠ sep := fun e => h (by simp [e])
    have hcs : sep ∉ cs := fun e => h (by simp [e])
    simp [splitOnChar, hc, splitOnChar_append_sep b hcs]

theorem intercalate_cons_cons (sep : Char) (a b : Str) (l : List Str) :
    [sep].intercalate (a :: b :: l) = a ++ sep :: [sep].intercalate (b :: l) := by
  simp [List.intercalate, List.intersperse]

theorem splitOnChar_of_intercalate (sep : Char) : ∀ ts : List Str, ts ≠ [] →
    (∀ t ∈ ts, sep ∉ t) → splitOnChar sep ([sep].intercalate ts) = ts
  | [], h, _ => absurd rfl h
  | [t], _, h => by
    have : [sep].intercalate [t] = t := by simp [List.intercalate]
    rw [this, splitOnChar_of_not_mem (h t (by simp))]
  | a :: b :: l, _, h => by
    rw [intercalate_cons_cons, splitOnChar_append_sep _ (h a (by simp)),
      splitOnChar_of_intercalate sep (b :: l) (by simp) (fun t ht => h t (by simp [ht]))]

theorem modOfToken_tokenOfMod (m : Mod) (h : ':' ∉ m.id) : modOfToken (tokenOfMod m) = m := by
  have hp : ∀ a ∈ m.id, (decide (a ≠ ':')) = true := by
    intro a ha
    have : a ≠ ':' := fun e => h (e ▸ ha)
    simpa using this
  have h1 : (m.id ++ ':' :: m.version).takeWhile (· ≠ ':') = m.id := by
    rw [List.takeWhile_append_of_pos hp]
    simp
  have h2 : (m.id ++ ':' :: m.version).dropWhile (· ≠ ':') = ':' :: m.version := by
    rw [List.dropWhile_append_of_pos hp]
    simp
  cases m
  simp_all [modOfToken, tokenOfMod, idOfToken, versionOfToken]

/-- C8, as stated, fails: the tokens `:1.0`, `abc:` and `:` are accepted, and
the Mods returned for them have an empty id or an empty version. -/
theorem parseMods_accepts_empty_parts :
    (parseMods (worldOf (some ":1.0,abc:,:".toList) (treeOf [] []) refused)).isFatal = false
      ∧ (parseMods (worldOf (some ":1.0,abc:,:".toList) (treeOf [] []) refused)).value
        = some [{ id := [], version := "1.0".toList }, { id := "abc".toList, version := [] },
                { id := [], version := [] }] := by
  decide

/-- C8, amended: parseMods accepts a token as soon as it holds a `:`, and cuts
it at the first `:` into an identifier and a version either of which may be
empty: for every non-empty list of Mods whose identifiers hold neither `:` nor
`,` and whose versions hold no `,`, empty ones included, parseMods of
`id1:v1,id2:v2,...` returns exactly these Mods. -/
theorem parseMods_tokenOfMod (w : World) (ms : List Mod) (hms : ms ≠ [])
    (hid : ∀ m ∈ ms, ':' ∉ m.id ∧ ',' ∉ m.id ∧ ',' ∉ m.version)
    (henv : os_Getenv w "MOD_IDS".toList = [','].intercalate (ms.map tokenOfMod)) :
    parseMods w = .ret ms w := by
  have hsplit : strings_Split (os_Getenv w "MOD_IDS".toList) ',' = ms.map tokenOfMod := by
    rw [strings_Split_eq, henv]
    apply splitOnChar_of_intercalate
    · simpa using hms
    · intro t ht
      obtain ⟨m, hm, rfl⟩ := List.mem_map.1 ht
      obtain ⟨_, h2, h3⟩ := hid m hm
      simp [tokenOfMod, h2, h3]
  have hne : os_Getenv w "MOD_IDS".toList ≠ [] := by
    intro h0
    have : strings_Split (os_Getenv w "MOD_IDS".toList) ',' = [[]] := by
      rw [h0]; decide
    rw [hsplit] at this
    cases ms with
    | nil => exact hms rfl
    | cons m l =>
      cases l with
      | nil => simp [tokenOfMod] at this
      | cons m2 l2 => simp at this
  have hall : ∀ t ∈ strings_Split (os_Getenv w "MOD_IDS".toList) ',', ':' ∈ t := by
    rw [hsplit]
    intro t ht
    obtain ⟨m, _, rfl⟩ := List.mem_map.1 ht
    simp [tokenOfMod]
  rw [parseMods_eq_map w hne hall, hsplit, List.map_map]
  congr 1
  conv => rhs; rw [← List.map_id ms]
  apply List.map_congr_left
  intro m hm
  exact modOfToken_tokenOfMod m (hid m hm).1

/-- The instance of the amended C8 at the Mods `("abc", "")`, `("", "")`. -/
theorem parseMods_tokenOfMod_witness :
    parseMods (worldOf (some "abc:,:".toList) (treeOf [] []) refused)
      = .ret [{ id := "abc".toList, version := [] }, { id := [], version := [] }]
          (worldOf (some "abc:,:".toList) (treeOf [] []) refused) :=
  parseMods_tokenOfMod (worldOf (some "abc:,:".toList) (treeOf [] []) refused)
    [{ id := "abc".toList, version := [] }, { id := [], version := [] }]
    (by decide) (by decide) (by decide)


/-! ## Mod.Name -/

/-- C4: Mod.Name always returns a string. It is the decoded `data.name` when
the request succeeded, the body decoded and the name is not empty; it is the
identifier `m.id` when the request failed, when the body did not decode, and
when the decoded name is empty. -/
theorem Name_never_fails (L : Lib) (m : Mod) (w : World) :
    (∀ res respData, w.net w.requests ("https://api.ficsit.app/v1/mod/".toList ++ m.id) = .ok res →
        L.jsonDecode res.Body = .ok respData → respData.Data.Name ≠ [] →
        (m.Name L w).1 = respData.Data.Name)
      ∧ (∀ err, w.net w.requests ("https://api.ficsit.app/v1/mod/".toList ++ m.id) = .error err →
        (m.Name L w).1 = m.id)
      ∧ (∀ res err, w.net w.requests ("https://api.ficsit.app/v1/mod/".toList ++ m.id) = .ok res →
        L.jsonDecode res.Body = .error err → (m.Name L w).1 = m.id)
      ∧ (∀ res respData, w.net w.requests ("https://api.ficsit.app/v1/mod/".toList ++ m.id) = .ok res →
        L.jsonDecode res.Body = .ok respData → respData.Data.Name = [] →
        (m.Name L w).1 = m.id) := by
  refine ⟨?_, ?_, ?_, ?_⟩
  · intro res respData h1 h2 h3
    simp only [Mod.Name, http_Get, h1, h2, if_neg h3]
  · intro err h1
    simp only [Mod.Name, http_Get, h1]
  · intro res err h1 h2
    simp only [Mod.Name, http_Get, h1, h2]
  · intro res respData h1 h2 h3
    simp only [Mod.Name, http_Get, h1, h2, if_pos h3]

/-! ## The status check -/

/-- C5: in downloadZipFile and in downloadLatestFile, an answer whose status
code is not 200 makes the call return the error
`invalid status: <quoted url>: <status>`, with the filesystem as it was. -/
theorem invalid_status (L : Lib) (w : World) (resp : Response) (hs : resp.StatusCode ≠ 200) :
    (∀ url fileName dst, w.net w.requests url = .ok resp →
        (downloadZipFile L url fileName dst w).value
            = some (some (.errorf ("invalid status: ".toList ++ L.quote url ++ ": ".toList
                ++ resp.Status)))
          ∧ (downloadZipFile L url fileName dst w).world.fs = w.fs)
      ∧ (∀ owner repo fileName dst,
        w.net w.requests (latestReleaseUrl owner repo fileName) = .ok resp →
        (downloadLatestFile L owner repo fileName dst w).value
            = some (some (.errorf ("invalid status: ".toList
                ++ L.quote (latestReleaseUrl owner repo fileName) ++ ": ".toList ++ resp.Status)))
          ∧ (downloadLatestFile L owner repo fileName dst w).world.fs = w.fs) := by
  refine ⟨?_, ?_⟩
  · intro url fileName dst h
    simp only [downloadZipFile, http_Get, log_Print, h, hs, ne_eq, not_false_eq_true, if_true,
      Res.value, Res.world, invalidStatus, and_self]
  · intro owner repo fileName dst h
    simp only [downloadLatestFile, http_Get, log_Print, h, hs, ne_eq, not_false_eq_true, if_true,
      Res.value, Res.world, invalidStatus, and_self]


/-- The instance of C5 at an answer "404 Not Found". -/
theorem invalid_status_witness :
    (downloadZipFile (libOf (.ok [])) "http://h/a.zip".toList "a.zip".toList "/d".toList
        (worldOf none (treeOf [] []) (.ok notFound))).value
        = some (some (.errorf "invalid status: \"http://h/a.zip\": 404 Not Found".toList))
      ∧ (downloadLatestFile (libOf (.ok [])) "o".toList "r".toList "f.dll".toList "/d".toList
        (worldOf none (treeOf [] []) (.ok notFound))).value
        = some (some (.errorf
            "invalid status: \"https://github.com/o/r/releases/latest/download/f.dll\": 404 Not Found".toList)) :=
  ⟨((invalid_status (libOf (.ok [])) (worldOf none (treeOf [] []) (.ok notFound)) notFound
      (by decide)).1 "http://h/a.zip".toList "a.zip".toList "/d".toList rfl).1,
   ((invalid_status (libOf (.ok [])) (worldOf none (treeOf [] []) (.ok notFound)) notFound
      (by decide)).2 "o".toList "r".toList "f.dll".toList "/d".toList rfl).1⟩

/-! ## A buffer that is not a zip archive -/

/-- C7, as stated, fails for a buffer that is not a valid zip archive but
whose directory `zip.NewReader` can read: the fault of the entry `b` shows
only when `Open()` is called for it, after the destination `/d` has been
created and the entry `a` written; downloadZipFile returns "zip: not a valid
zip file" and the filesystem is not what it was. -/
theorem broken_entry_after_writes :
    os_Stat (worldOf none (treeOf [] []) (.ok (okWith [80, 75]))).fs "/d".toList
        = .error (.pathError "stat".toList "/d".toList .ENOENT)
      ∧ (downloadZipFile (libOf (.ok [entryOf "a".toList [1], brokenEntry "b".toList]))
          "http://h/a.zip".toList "a.zip".toList "/d".toList
          (worldOf none (treeOf [] []) (.ok (okWith [80, 75])))).value
        = some (some (.lib "zip: not a valid zip file".toList))
      ∧ os_Stat (downloadZipFile (libOf (.ok [entryOf "a".toList [1], brokenEntry "b".toList]))
          "http://h/a.zip".toList "a.zip".toList "/d".toList
          (worldOf none (treeOf [] []) (.ok (okWith [80, 75])))).world.fs "/d".toList
        = .ok .dir
      ∧ os_Stat (downloadZipFile (libOf (.ok [entryOf "a".toList [1], brokenEntry "b".toList]))
          "http://h/a.zip".toList "a.zip".toList "/d".toList
          (worldOf none (treeOf [] []) (.ok (okWith [80, 75])))).world.fs "/d/a".toList
        = .ok (.file [1]) := by
  decide

/-- C7, amended: when `zip.NewReader` rejects the body that was downloaded,
downloadZipFile returns the error of the zip reader and the filesystem is
what it was: the archive is opened before the destination is prepared. -/
theorem not_a_zip (L : Lib) (url fileName dst : Str) (w : World) (resp : Response) (buf : Bytes)
    (err : GoError) (hget : w.net w.requests url = .ok resp) (hs : resp.StatusCode = 200)
    (hread : ioutil_ReadAll resp.Body = .ok buf) (hzip : L.zipNewReader buf = .error err) :
    (downloadZipFile L url fileName dst w).value = some (some err)
      ∧ (downloadZipFile L url fileName dst w).world.fs = w.fs := by
  simp only [downloadZipFile, http_Get, log_Print, hget, hs, ne_eq, not_true_eq_false, if_false,
    hread, hzip, Res.value, Res.world, and_self]

/-- The instance of the amended C7 at the body `PK` and a destination that does not exist. -/
theorem not_a_zip_witness :
    (downloadZipFile (libOf (.error (.lib "zip: not a valid zip file".toList)))
        "http://h/a.zip".toList "a.zip".toList "/d".toList
        (worldOf none (treeOf [] []) (.ok (okWith [80, 75])))).value
        = some (some (.lib "zip: not a valid zip file".toList))
      ∧ (downloadZipFile (libOf (.error (.lib "zip: not a valid zip file".toList)))
        "http://h/a.zip".toList "a.zip".toList "/d".toList
        (worldOf none (treeOf [] []) (.ok (okWith [80, 75])))).world.fs
        = (worldOf none (treeOf [] []) (.ok (okWith [80, 75]))).fs :=
  not_a_zip (libOf (.error (.lib "zip: not a valid zip file".toList)))
    "http://h/a.zip".toList "a.zip".toList "/d".toList
    (worldOf none (treeOf [] []) (.ok (okWith [80, 75]))) (okWith [80, 75]) [80, 75]
    (.lib "zip: not a valid zip file".toList) rfl rfl rfl rfl

/-! ## Entry names are not checked -/

/-- C10: with the destination `/g/FactoryGame/Mods/X` and the entry name
`../../evil`, which holds `..`, writeZipFile writes the file
`/g/FactoryGame/evil`: its path does not start with the destination, it lies
two directories above it, and nothing is written below the destination. -/
theorem entry_path_traversal :
    ['.', '.'] <:+: "../../evil".toList
      ∧ path_Join ["/g/FactoryGame/Mods/X".toList, "../../evil".toList]
        = "/g/FactoryGame/evil".toList
      ∧ ¬ ("/g/FactoryGame/Mods/X".toList
          <+: path_Join ["/g/FactoryGame/Mods/X".toList, "../../evil".toList])
      ∧ (writeZipFile (libOf (.ok [])) "/g/FactoryGame/Mods/X".toList
          (entryOf "../../evil".toList [1, 2, 3])
          (worldOf none (treeOf gameDirs []) refused)).value = some none
      ∧ os_Stat (writeZipFile (libOf (.ok [])) "/g/FactoryGame/Mods/X".toList
          (entryOf "../../evil".toList [1, 2, 3])
          (worldOf none (treeOf gameDirs []) refused)).world.fs "/g/FactoryGame/evil".toList
        = .ok (.file [1, 2, 3])
      ∧ namei (worldOf none (treeOf gameDirs []) refused).fs
          (path_Join ["/g/FactoryGame/Mods/X".toList, "../../evil".toList])
        = .ok ["g".toList, "FactoryGame".toList, "evil".toList]
      ∧ os_Stat (writeZipFile (libOf (.ok [])) "/g/FactoryGame/Mods/X".toList
          (entryOf "../../evil".toList [1, 2, 3])
          (worldOf none (treeOf gameDirs []) refused)).world.fs
          "/g/FactoryGame/Mods/X/evil".toList
        = .error (.pathError "stat".toList "/g/FactoryGame/Mods/X/evil".toList .ENOENT) := by
  decide

/-! ## The file tree -/

theorem FS.get_set (fs : FS) {p : Loc} (n : Node) (q : Loc) (hp : p ≠ []) :
    (fs.set p n).get q = if q = p then some n else fs.get q := by
  unfold FS.get FS.set
  by_cases hq : q = []
  · subst hq
    simp [Ne.symm hp]
  · simp [hq]

theorem FS.ne_nil_of_get_ne_dir (fs : FS) {p : Loc} (h : fs.get p ≠ some .dir) : p ≠ [] := by
  intro hp
  subst hp
  exact h (by simp [FS.get])

theorem FS.Grows.refl (fs : FS) : fs.Grows fs := ⟨rfl, fun _ _ h => h⟩

theorem FS.Grows.andThen {a b c : FS} (h1 : a.Grows b) (h2 : b.Grows c) : a.Grows c :=
  ⟨h2.1.trans h1.1, fun x n h => h2.2 x n (h1.2 x n h)⟩

theorem FS.Grows.dirsKept {a b : FS} (h : a.Grows b) : a.DirsKept b :=
  ⟨h.1, fun x hx => h.2 x _ hx⟩

theorem FS.DirsKept.compose {a b c : FS} (h1 : a.DirsKept b) (h2 : b.DirsKept c) : a.DirsKept c :=
  ⟨h2.1.trans h1.1, fun x h => h2.2 x (h1.2 x h)⟩

theorem FS.grows_set_of_none (fs : FS) {p : Loc} (n : Node) (h : fs.get p = none) :
    fs.Grows (fs.set p n) := by
  have hp : p ≠ [] := fs.ne_nil_of_get_ne_dir (by simp [h])
  refine ⟨rfl, fun x m hx => ?_⟩
  rw [FS.get_set fs n x hp]
  have : x ≠ p := fun e => by rw [e, h] at hx; cases hx
  simp [this, hx]

theorem FS.dirsKept_set (fs : FS) {p : Loc} (n : Node) (h : fs.get p ≠ some .dir) :
    fs.DirsKept (fs.set p n) := by
  have hp : p ≠ [] := fs.ne_nil_of_get_ne_dir h
  refine ⟨rfl, fun x hx => ?_⟩
  rw [FS.get_set fs n x hp]
  have : x ≠ p := fun e => h (e ▸ hx)
  simp [this, hx]

theorem walk_eq_foldl (fs : FS) : ∀ (es : List Str) (cur p : Loc),
    walk fs cur es = .ok p → p = es.foldl stepLoc cur
  | [], cur, p, h => by
    simp only [walk, Except.ok.injEq] at h
    simp [h]
  | e :: es, cur, p, h => by
    unfold walk at h
    split at h
    · cases h
    · cases h
    · simpa using walk_eq_foldl fs es _ p h

theorem walk_dirsKept {fs fs2 : FS} (hk : fs.DirsKept fs2) : ∀ (es : List Str) (cur p : Loc),
    walk fs cur es = .ok p → walk fs2 cur es = .ok p
  | [], cur, p, h => by simpa [walk] using h
  | e :: es, cur, p, h => by
    unfold walk at h
    split at h
    · cases h
    · cases h
    · rename_i hd
      unfold walk
      rw [hk.2 cur hd]
      exact walk_dirsKept hk es _ p h

theorem walk_append (fs : FS) : ∀ (es1 es2 : List Str) (cur p : Loc),
    walk fs cur (es1 ++ es2) = .ok p ↔ ∃ q, walk fs cur es1 = .ok q ∧ walk fs q es2 = .ok p
  | [], es2, cur, p => by simp [walk]
  | e :: es1, es2, cur, p => by
    have ih := walk_append fs es1 es2 (stepLoc cur e) p
    simp only [List.cons_append, walk]
    split
    · simp
    · simp
    · exact ih

theorem walk_cons_dir (fs : FS) {e : Str} {es : List Str} {cur p : Loc}
    (h : walk fs cur (e :: es) = .ok p) : fs.get cur = some .dir := by
  unfold walk at h
  split at h
  · cases h
  · cases h
  · assumption

theorem startLoc_dirsKept {fs fs2 : FS} (hk : fs.DirsKept fs2) (path : Str) :
    startLoc fs2 path = startLoc fs path := by
  simp [startLoc, hk.1]

theorem namei_dirsKept {fs fs2 : FS} (hk : fs.DirsKept fs2) {path : Str} {p : Loc}
    (h : namei fs path = .ok p) : namei fs2 path = .ok p := by
  unfold namei at h ⊢
  split
  · rename_i h0
    simp [h0] at h
  · rename_i h0
    rw [if_neg h0] at h
    rw [startLoc_dirsKept hk]
    exact walk_dirsKept hk _ _ _ h

theorem namei_eq_lexLoc {fs : FS} {path : Str} {p : Loc} (h : namei fs path = .ok p) :
    p = lexLoc fs.cwd path := by
  unfold namei at h
  split at h
  · cases h
  · exact walk_eq_foldl fs _ _ _ h

theorem os_Stat_eq_ok {fs : FS} {path : Str} {n : Node} :
    os_Stat fs path = .ok n ↔ ∃ p, namei fs path = .ok p ∧ fs.get p = some n := by
  unfold os_Stat
  constructor
  · intro h
    cases hp : namei fs path with
    | error e => simp [hp] at h
    | ok p =>
      simp only [hp] at h
      cases hm : fs.get p with
      | none => simp [hm] at h
      | some m =>
        simp only [hm, Except.ok.injEq] at h
        exact ⟨p, rfl, h ▸ hm⟩
  · rintro ⟨p, hp, hn⟩
    simp [hp, hn]

theorem os_Stat_grows {fs fs2 : FS} (hg : fs.Grows fs2) {path : Str} {n : Node}
    (h : os_Stat fs path = .ok n) : os_Stat fs2 path = .ok n := by
  obtain ⟨p, hp, hn⟩ := os_Stat_eq_ok.1 h
  exact os_Stat_eq_ok.2 ⟨p, namei_dirsKept hg.dirsKept hp, hg.2 p n hn⟩

theorem pathElems_append_slash_eq (a b : Str) :
    pathElems (a ++ '/' :: b) = pathElems a ++ pathElems b := by
  induction a with
  | nil => simp [pathElems, splitOnChar]
  | cons c cs ih =>
    have hne := splitOnChar_ne_nil '/' cs
    simp only [pathElems] at ih ⊢
    by_cases hc : c = '/'
    · simp [splitOnChar, hc, ih]
    · cases hs : splitOnChar '/' cs with
      | nil => exact absurd hs hne
      | cons e es =>
        rw [hs] at ih
        simp [splitOnChar, hc, ih, hs]

/-- A path that exists has all the directories on its way. -/
theorem os_Stat_dir_of_longer {fs : FS} {D rest : Str} {n : Node} (hD : D ≠ [])
    (h : os_Stat fs (D ++ '/' :: rest) = .ok n) : os_Stat fs D = .ok .dir := by
  obtain ⟨p, hp, _⟩ := os_Stat_eq_ok.1 h
  unfold namei at hp
  rw [if_neg (by simp)] at hp
  have hstart : startLoc fs (D ++ '/' :: rest) = startLoc fs D := by
    cases D with
    | nil => exact absurd rfl hD
    | cons c cs => simp [startLoc]
  rw [hstart, pathElems_append_slash_eq] at hp
  obtain ⟨q, hq, hrest⟩ := (walk_append fs _ _ _ _).1 hp
  have hne := splitOnChar_ne_nil '/' rest
  cases hs : pathElems rest with
  | nil => exact absurd hs hne
  | cons e es =>
    rw [hs] at hrest
    have hdir := walk_cons_dir fs hrest
    apply os_Stat_eq_ok.2
    exact ⟨q, by unfold namei; rw [if_neg hD]; exact hq, hdir⟩

/-! ## os.MkdirAll and mkdirAllIfNotExists -/

theorem mkdirWalk_grows : ∀ (es : List Str) (fs : FS) (cur : Loc),
    fs.Grows (mkdirWalk es fs cur).2
  | [], fs, cur => by
    unfold mkdirWalk
    split <;> exact FS.Grows.refl fs
  | e :: es, fs, cur => by
    unfold mkdirWalk
    split
    · exact FS.Grows.refl fs
    · exact FS.Grows.refl fs
    · simp only
      split
      · rename_i hc
        exact (fs.grows_set_of_none .dir hc.2).andThen (mkdirWalk_grows es _ _)
      · exact mkdirWalk_grows es _ _

theorem mkdirWalk_files : ∀ (es : List Str) (fs : FS) (cur : Loc) (x : Loc) (d : Bytes),
    (mkdirWalk es fs cur).2.get x = some (.file d) → fs.get x = some (.file d)
  | [], fs, cur, x, d => by
    unfold mkdirWalk
    split <;> exact id
  | e :: es, fs, cur, x, d => by
    unfold mkdirWalk
    split
    · exact id
    · exact id
    · simp only
      split
      · rename_i hc
        intro h
        have h1 := mkdirWalk_files es _ _ x d h
        have hp : stepLoc cur e ≠ [] := fs.ne_nil_of_get_ne_dir (by simp [hc.2])
        rw [FS.get_set fs _ x hp] at h1
        split at h1
        · cases h1
        · exact h1
      · exact mkdirWalk_files es _ _ x d

theorem mkdirWalk_ok : ∀ (es : List Str) (fs fs2 : FS) (cur : Loc),
    mkdirWalk es fs cur = (none, fs2) →
      ∃ p, walk fs2 cur es = .ok p ∧ fs2.get p = some .dir
  | [], fs, fs2, cur => by
    unfold mkdirWalk
    split
    · intro h; cases h
    · intro h; cases h
    · rename_i hd
      intro h
      cases h
      exact ⟨cur, rfl, hd⟩
  | e :: es, fs, fs2, cur => by
    unfold mkdirWalk
    split
    · intro h; cases h
    · intro h; cases h
    · rename_i hd
      simp only
      split
      · rename_i hc
        intro h
        obtain ⟨p, hp, hpd⟩ := mkdirWalk_ok es _ fs2 _ h
        have hg : (fs.set (stepLoc cur e) .dir).Grows fs2 := by
          have := mkdirWalk_grows es (fs.set (stepLoc cur e) .dir) (stepLoc cur e)
          rwa [h] at this
        have hcur : fs2.get cur = some .dir :=
          hg.2 cur _ ((fs.grows_set_of_none .dir hc.2).2 cur _ hd)
        exact ⟨p, by unfold walk; rw [hcur]; exact hp, hpd⟩
      · intro h
        obtain ⟨p, hp, hpd⟩ := mkdirWalk_ok es _ fs2 _ h
        have hg : fs.Grows fs2 := by
          have := mkdirWalk_grows es fs (stepLoc cur e)
          rwa [h] at this
        have hcur : fs2.get cur = some .dir := hg.2 cur _ hd
        exact ⟨p, by unfold walk; rw [hcur]; exact hp, hpd⟩

theorem os_MkdirAll_grows (fs : FS) (path : Str) : fs.Grows (os_MkdirAll fs path).2 := by
  unfold os_MkdirAll
  split
  · exact FS.Grows.refl fs
  · have hg := mkdirWalk_grows (pathElems path) fs (startLoc fs path)
    split
    · rename_i h; rw [h] at hg; exact hg
    · rename_i h; rw [h] at hg; exact hg

theorem os_MkdirAll_files (fs : FS) (path : Str) (x : Loc) (d : Bytes) :
    (os_MkdirAll fs path).2.get x = some (.file d) → fs.get x = some (.file d) := by
  unfold os_MkdirAll
  split
  · exact id
  · have hf := mkdirWalk_files (pathElems path) fs (startLoc fs path) x d
    split
    · rename_i h; rw [h] at hf; exact hf
    · rename_i h; rw [h] at hf; exact hf

theorem os_MkdirAll_ok {fs fs2 : FS} {path : Str} (h : os_MkdirAll fs path = (none, fs2)) :
    os_Stat fs2 path = .ok .dir := by
  unfold os_MkdirAll at h
  split at h
  · cases h
  · rename_i hne
    split at h
    · cases h
    · rename_i fs1 hw
      cases h
      obtain ⟨p, hp, hd⟩ := mkdirWalk_ok _ _ _ _ hw
      have hg : fs.Grows fs2 := by
        have := mkdirWalk_grows (pathElems path) fs (startLoc fs path)
        rwa [hw] at this
      apply os_Stat_eq_ok.2
      refine ⟨p, ?_, hd⟩
      unfold namei
      rw [if_neg hne, startLoc_dirsKept hg.dirsKept]
      exact hp

/-- What mkdirAllIfNotExists leaves when it returns. -/
theorem mkdirAllIfNotExists_ret {name : Str} {w w2 : World} {u : Unit}
    (h : mkdirAllIfNotExists name w = .ret u w2) :
    w.fs.Grows w2.fs
      ∧ (∀ x d, w2.fs.get x = some (.file d) → w.fs.get x = some (.file d))
      ∧ w2.environ = w.environ ∧ w2.net = w.net ∧ w2.requests = w.requests ∧ w2.log = w.log
      ∧ ((∃ err, os_Stat w.fs name = .error err ∧ isNotExist err = true) →
          os_Stat w2.fs name = .ok .dir)
      ∧ ((¬ ∃ err, os_Stat w.fs name = .error err ∧ isNotExist err = true) → w2 = w) := by
  unfold mkdirAllIfNotExists at h
  cases hs : os_Stat w.fs name with
  | ok n =>
    simp only [hs] at h
    cases h
    exact ⟨FS.Grows.refl _, fun _ _ hx => hx, rfl, rfl, rfl, rfl,
      fun ⟨err, he, _⟩ => (by cases he), fun _ => rfl⟩
  | error err =>
    simp only [hs] at h
    by_cases hn : isNotExist err = true
    · rw [if_pos hn] at h
      cases hm : os_MkdirAll w.fs name with
      | mk r fs1 =>
        rw [hm] at h
        cases r with
        | some e1 => cases h
        | none =>
          simp only [Res.ret.injEq] at h
          obtain ⟨_, hw⟩ := h
          subst hw
          have hg := os_MkdirAll_grows w.fs name
          have hf := os_MkdirAll_files w.fs name
          rw [hm] at hg hf
          exact ⟨hg, hf, rfl, rfl, rfl, rfl, fun _ => os_MkdirAll_ok hm,
            fun hno => absurd ⟨err, rfl, hn⟩ hno⟩
    · rw [if_neg hn] at h
      cases h
      exact ⟨FS.Grows.refl _, fun _ _ hx => hx, rfl, rfl, rfl, rfl,
        fun ⟨e2, he, hi⟩ => (by cases he; exact absurd hi hn), fun _ => rfl⟩

theorem mkdirWalk_cwd_pinned : ∀ (es : List Str) (fs : FS) (cur : Loc),
    (mkdirWalk es fs cur).2.cwd = fs.cwd ∧ (mkdirWalk es fs cur).2.pinned = fs.pinned
  | [], fs, cur => by
    unfold mkdirWalk
    split <;> exact ⟨rfl, rfl⟩
  | e :: es, fs, cur => by
    unfold mkdirWalk
    split
    · exact ⟨rfl, rfl⟩
    · exact ⟨rfl, rfl⟩
    · simp only
      split
      · exact mkdirWalk_cwd_pinned es _ _
      · exact mkdirWalk_cwd_pinned es _ _

/-- What `os.MkdirAll` changes: a place holds what it held, or it held
nothing, lies on the way of the path and is now a directory. -/
theorem mkdirWalk_changes : ∀ (es : List Str) (fs : FS) (cur : Loc) (x : Loc),
    (mkdirWalk es fs cur).2.get x = fs.get x
      ∨ (fs.get x = none ∧ (mkdirWalk es fs cur).2.get x = some .dir ∧ x ∈ visitedLocs cur es)
  | [], fs, cur, x => by
    unfold mkdirWalk
    split <;> exact Or.inl rfl
  | e :: es, fs, cur, x => by
    unfold mkdirWalk
    split
    · exact Or.inl rfl
    · exact Or.inl rfl
    · simp only
      split
      · rename_i hc
        have hne : stepLoc cur e ≠ [] := fs.ne_nil_of_get_ne_dir (by simp [hc.2])
        have hset := FS.get_set fs .dir x hne
        have hhead : stepLoc cur e ∈ visitedLocs (stepLoc cur e) es := by
          cases es <;> simp [visitedLocs]
        rcases mkdirWalk_changes es (fs.set (stepLoc cur e) .dir) (stepLoc cur e) x with h | h
        · by_cases hx : x = stepLoc cur e
          · right
            rw [if_pos hx] at hset
            rw [hset] at h
            subst hx
            exact ⟨hc.2, h, by simp [visitedLocs, hhead]⟩
          · left
            rw [if_neg hx] at hset
            rw [h, hset]
        · right
          obtain ⟨h1, h2, h3⟩ := h
          by_cases hx : x = stepLoc cur e
          · rw [if_pos hx] at hset
            rw [hset] at h1
            cases h1
          · rw [if_neg hx] at hset
            rw [hset] at h1
            exact ⟨h1, h2, by simp [visitedLocs, h3]⟩
      · rcases mkdirWalk_changes es fs (stepLoc cur e) x with h | h
        · exact Or.inl h
        · exact Or.inr ⟨h.1, h.2.1, by simp [visitedLocs, h.2.2]⟩

theorem os_MkdirAll_changes (fs : FS) (path : Str) :
    (os_MkdirAll fs path).2.cwd = fs.cwd ∧ (os_MkdirAll fs path).2.pinned = fs.pinned
      ∧ ∀ x, (os_MkdirAll fs path).2.get x = fs.get x
        ∨ (fs.get x = none ∧ (os_MkdirAll fs path).2.get x = some .dir
          ∧ x ∈ visitedLocs (startLoc fs path) (pathElems path)) := by
  unfold os_MkdirAll
  split
  · exact ⟨rfl, rfl, fun _ => Or.inl rfl⟩
  · have h1 := mkdirWalk_cwd_pinned (pathElems path) fs (startLoc fs path)
    have h2 := mkdirWalk_changes (pathElems path) fs (startLoc fs path)
    split
    · rename_i h; rw [h] at h1 h2; exact ⟨h1.1, h1.2, h2⟩
    · rename_i h; rw [h] at h1 h2; exact ⟨h1.1, h1.2, h2⟩

/-- What mkdirAllIfNotExists has changed when it returns: nothing but the
file tree, and in the tree nothing but places on the way of the path that
held nothing and are now directories. -/
theorem mkdirAllIfNotExists_changes {name : Str} {w w2 : World} {u : Unit}
    (h : mkdirAllIfNotExists name w = .ret u w2) :
    w2.fs.cwd = w.fs.cwd ∧ w2.fs.pinned = w.fs.pinned
      ∧ ∀ x, w2.fs.get x = w.fs.get x
        ∨ (w.fs.get x = none ∧ w2.fs.get x = some .dir
          ∧ x ∈ visitedLocs (startLoc w.fs name) (pathElems name)) := by
  unfold mkdirAllIfNotExists at h
  cases hs : os_Stat w.fs name with
  | ok n =>
    simp only [hs] at h
    cases h
    exact ⟨rfl, rfl, fun _ => Or.inl rfl⟩
  | error err =>
    simp only [hs] at h
    by_cases hn : isNotExist err = true
    · rw [if_pos hn] at h
      have hch := os_MkdirAll_changes w.fs name
      cases hm : os_MkdirAll w.fs name with
      | mk r fs1 =>
        rw [hm] at h hch
        cases r with
        | some e1 => cases h
        | none =>
          simp only [Res.ret.injEq] at h
          obtain ⟨_, hw⟩ := h
          subst hw
          exact hch
    · rw [if_neg hn] at h
      cases h
      exact ⟨rfl, rfl, fun _ => Or.inl rfl⟩

/-- C9, as stated, fails: where `/a` is a regular file, mkdirAllIfNotExists
returns normally and `/a` is still a regular file, and where `/a` is a regular
file, mkdirAllIfNotExists of `/a/b` returns normally and `/a/b` does not
exist. -/
theorem mkdirAllIfNotExists_leaves_file :
    (mkdirAllIfNotExists "/a".toList
        (worldOf none (treeOf [] [(["a".toList], [1])]) refused)).isFatal = false
      ∧ os_Stat (mkdirAllIfNotExists "/a".toList
          (worldOf none (treeOf [] [(["a".toList], [1])]) refused)).world.fs "/a".toList
        = .ok (.file [1])
      ∧ (mkdirAllIfNotExists "/a/b".toList
        (worldOf none (treeOf [] [(["a".toList], [1])]) refused)).isFatal = false
      ∧ os_Stat (mkdirAllIfNotExists "/a/b".toList
          (worldOf none (treeOf [] [(["a".toList], [1])]) refused)).world.fs "/a/b".toList
        = .error (.pathError "stat".toList "/a/b".toList .ENOTDIR) := by
  decide

/-- C9, amended: for every path and every filesystem state,
mkdirAllIfNotExists either ends the process or returns, and when it returns
the environment, the network, the log, the working directory and what may be
deleted are what they were. When it returns and `os.Stat` had reported the
path as not existing, the path exists as a directory, every directory on the
way to it exists, what was there before is still there, unchanged, and the
only new things are directories at places the path leads through; when it
returns and `os.Stat` had found the path (a directory or a regular file) or
had failed for another reason, nothing at all has been changed. -/
theorem mkdirAllIfNotExists_spec (name : Str) (w : World) :
    (mkdirAllIfNotExists name w).isFatal = true
      ∨ (∃ w2, mkdirAllIfNotExists name w = .ret () w2
          ∧ w2.environ = w.environ ∧ w2.net = w.net ∧ w2.requests = w.requests
          ∧ w2.log = w.log ∧ w2.fs.cwd = w.fs.cwd ∧ w2.fs.pinned = w.fs.pinned
          ∧ ((∃ err, os_Stat w.fs name = .error err ∧ isNotExist err = true) →
              os_Stat w2.fs name = .ok .dir
                ∧ (∀ D rest, name = D ++ '/' :: rest → D ≠ [] → os_Stat w2.fs D = .ok .dir)
                ∧ w.fs.Grows w2.fs
                ∧ (∀ x d, w2.fs.get x = some (.file d) → w.fs.get x = some (.file d))
                ∧ (∀ x, w2.fs.get x = w.fs.get x
                    ∨ (w.fs.get x = none ∧ w2.fs.get x = some .dir
                      ∧ x ∈ visitedLocs (startLoc w.fs name) (pathElems name))))
          ∧ ((¬ ∃ err, os_Stat w.fs name = .error err ∧ isNotExist err = true) → w2 = w)) := by
  cases hr : mkdirAllIfNotExists name w with
  | fatal msg w1 => exact Or.inl rfl
  | ret u w2 =>
    right
    obtain ⟨hg, hfiles, henv, hnet, hreq, hlog, hdir, hsame⟩ := mkdirAllIfNotExists_ret hr
    obtain ⟨hcwd, hpin, hch⟩ := mkdirAllIfNotExists_changes hr
    refine ⟨w2, rfl, henv, hnet, hreq, hlog, hcwd, hpin,
      fun hex => ⟨hdir hex, fun D rest hname hD => ?_, hg, hfiles, hch⟩, hsame⟩
    have := hdir hex
    rw [hname] at this
    exact os_Stat_dir_of_longer hD this

/-- The instance of the amended C9 at the path `/g/FactoryGame/Mods` in an
empty filesystem: the call returns, the three directories exist and nothing
else does. -/
theorem mkdirAllIfNotExists_spec_witness :
    (mkdirAllIfNotExists "/g/FactoryGame/Mods".toList
        (worldOf none (treeOf [] []) refused)).isFatal = false
      ∧ os_Stat (mkdirAllIfNotExists "/g/FactoryGame/Mods".toList
          (worldOf none (treeOf [] []) refused)).world.fs "/g/FactoryGame/Mods".toList
        = .ok .dir
      ∧ visitedLocs (startLoc (worldOf none (treeOf [] []) refused).fs
            "/g/FactoryGame/Mods".toList) (pathElems "/g/FactoryGame/Mods".toList)
        = [[], [], ["g".toList], ["g".toList, "FactoryGame".toList],
            ["g".toList, "FactoryGame".toList, "Mods".toList]]
      ∧ ((mkdirAllIfNotExists "/g/FactoryGame/Mods".toList
          (worldOf none (treeOf [] []) refused)).isFatal = true
        ∨ (∃ w2, mkdirAllIfNotExists "/g/FactoryGame/Mods".toList
              (worldOf none (treeOf [] []) refused) = .ret () w2
          ∧ w2.environ = (worldOf none (treeOf [] []) refused).environ
          ∧ w2.net = (worldOf none (treeOf [] []) refused).net
          ∧ w2.requests = (worldOf none (treeOf [] []) refused).requests
          ∧ w2.log = (worldOf none (treeOf [] []) refused).log
          ∧ w2.fs.cwd = (worldOf none (treeOf [] []) refused).fs.cwd
          ∧ w2.fs.pinned = (worldOf none (treeOf [] []) refused).fs.pinned
          ∧ ((∃ err, os_Stat (worldOf none (treeOf [] []) refused).fs
                "/g/FactoryGame/Mods".toList = .error err ∧ isNotExist err = true) →
              os_Stat w2.fs "/g/FactoryGame/Mods".toList = .ok .dir
                ∧ (∀ D rest, "/g/FactoryGame/Mods".toList = D ++ '/' :: rest → D ≠ [] →
                    os_Stat w2.fs D = .ok .dir)
                ∧ (worldOf none (treeOf [] []) refused).fs.Grows w2.fs
                ∧ (∀ x d, w2.fs.get x = some (.file d) →
                    (worldOf none (treeOf [] []) refused).fs.get x = some (.file d))
                ∧ (∀ x, w2.fs.get x = (worldOf none (treeOf [] []) refused).fs.get x
                    ∨ ((worldOf none (treeOf [] []) refused).fs.get x = none
                      ∧ w2.fs.get x = some .dir
                      ∧ x ∈ visitedLocs (startLoc (worldOf none (treeOf [] []) refused).fs
                          "/g/FactoryGame/Mods".toList)
                        (pathElems "/g/FactoryGame/Mods".toList))))
          ∧ ((¬ ∃ err, os_Stat (worldOf none (treeOf [] []) refused).fs
                "/g/FactoryGame/Mods".toList = .error err ∧ isNotExist err = true) →
              w2 = worldOf none (treeOf [] []) refused))) :=
  ⟨by decide, by decide, by decide, mkdirAllIfNotExists_spec "/g/FactoryGame/Mods".toList
    (worldOf none (treeOf [] []) refused)⟩

/-! ## Writing the entries of an archive -/

theorem os_OpenFile_ok {fs fs3 : FS} {name : Str} {p : Loc}
    (h : os_OpenFile fs name = .ok (p, fs3)) :
    namei fs name = .ok p ∧ fs.get p ≠ some .dir ∧ fs3 = fs.set p (.file []) := by
  unfold os_OpenFile at h
  cases hn : namei fs name with
  | error e => simp [hn] at h
  | ok q =>
    simp only [hn] at h
    cases hg : fs.get q with
    | none =>
      simp only [hg, Except.ok.injEq, Prod.mk.injEq] at h
      obtain ⟨h1, h2⟩ := h
      subst h1
      exact ⟨rfl, by simp [hg], h2.symm⟩
    | some m =>
      cases m with
      | dir => simp [hg] at h
      | file d =>
        simp only [hg, Except.ok.injEq, Prod.mk.injEq] at h
        obtain ⟨h1, h2⟩ := h
        subst h1
        exact ⟨rfl, by simp [hg], h2.symm⟩

/-- What opening a file and copying `data` into it leaves: the file holds
`data`, and every other path is what it was. -/
theorem written_file {fs : FS} {name : Str} {p : Loc} (data : Bytes)
    (hn : namei fs name = .ok p) (hd : fs.get p ≠ some .dir) :
    os_Stat ((fs.set p (.file [])).set p (.file data)) name = .ok (.file data)
      ∧ ((fs.set p (.file [])).set p (.file data)).cwd = fs.cwd
      ∧ ∀ (other : Str) (n : Node), os_Stat fs other = .ok n →
          lexLoc fs.cwd other ≠ lexLoc fs.cwd name →
          os_Stat ((fs.set p (.file [])).set p (.file data)) other = .ok n := by
  have hp : p ≠ [] := fs.ne_nil_of_get_ne_dir hd
  have hk1 : fs.DirsKept (fs.set p (.file [])) := fs.dirsKept_set _ hd
  have hd2 : (fs.set p (.file [])).get p ≠ some .dir := by
    rw [FS.get_set fs _ p hp]; simp
  have hk2 : (fs.set p (.file [])).DirsKept ((fs.set p (.file [])).set p (.file data)) :=
    FS.dirsKept_set _ _ hd2
  have hk := hk1.compose hk2
  have hget : ∀ q, ((fs.set p (.file [])).set p (.file data)).get q
      = if q = p then some (.file data) else fs.get q := by
    intro q
    rw [FS.get_set _ _ q hp, FS.get_set fs _ q hp]
    split <;> rfl
  refine ⟨?_, rfl, ?_⟩
  · exact os_Stat_eq_ok.2 ⟨p, namei_dirsKept hk hn, by rw [hget]; simp⟩
  · intro other n hs hne
    obtain ⟨q, hq, hqn⟩ := os_Stat_eq_ok.1 hs
    have hqp : q ≠ p := by
      rw [namei_eq_lexLoc hq, namei_eq_lexLoc hn]
      exact hne
    exact os_Stat_eq_ok.2 ⟨q, namei_dirsKept hk hq, by rw [hget, if_neg hqp]; exact hqn⟩

/-- What writeZipFile leaves when it returns `nil`. -/
theorem writeZipFile_ret_nil {L : Lib} {dst : Str} {e : ZipFile} {w w2 : World}
    (h : writeZipFile L dst e w = .ret none w2) :
    ∃ data, e.Open = .ok { data := data, err := none }
      ∧ os_Stat w2.fs (path_Join [dst, e.Name]) = .ok (.file data)
      ∧ w2.fs.cwd = w.fs.cwd
      ∧ ∀ (other : Str) (n : Node), os_Stat w.fs other = .ok n →
          lexLoc w.fs.cwd other ≠ lexLoc w.fs.cwd (path_Join [dst, e.Name]) →
          os_Stat w2.fs other = .ok n := by
  unfold writeZipFile at h
  simp only at h
  cases hm : (if (path_Split e.Name).1 ≠ [] then
      mkdirAllIfNotExists (path_Join [dst, (path_Split e.Name).1]) w else Res.ret () w) with
  | fatal msg w1 => rw [hm] at h; cases h
  | ret u w1 =>
    rw [hm] at h
    simp only at h
    have hg : w.fs.Grows w1.fs := by
      split at hm
      · exact (mkdirAllIfNotExists_ret hm).1
      · cases hm; exact FS.Grows.refl _
    cases ho : e.Open with
    | error err => rw [ho] at h; cases h
    | ok zipReader =>
      rw [ho] at h
      simp only [log_Print] at h
      cases hf : os_OpenFile w1.fs (path_Join [dst, e.Name]) with
      | error err => rw [hf] at h; cases h
      | ok r =>
        obtain ⟨file, fs3⟩ := r
        rw [hf] at h
        obtain ⟨hn, hd, h3⟩ := os_OpenFile_ok hf
        subst h3
        simp only [io_Copy] at h
        cases hz : zipReader with
        | mk data err =>
          rw [hz] at h
          cases err with
          | some e1 => cases h
          | none =>
            simp only [Res.ret.injEq, true_and] at h
            subst h
            obtain ⟨hs, hc, hframe⟩ := written_file data hn hd
            refine ⟨data, rfl, hs, hc.trans hg.1, ?_⟩
            intro other n hso hne
            apply hframe other n (os_Stat_grows hg hso)
            rw [hg.1]
            exact hne

/-- The entries of an archive that has been written without error: an entry
whose file no later entry writes again is on disk with its bytes. -/
theorem writeZipFiles_ret_nil (L : Lib) (dst : Str) : ∀ (entries : List ZipFile) (w w2 : World),
    writeZipFiles L dst entries w = .ret none w2 →
      w2.fs.cwd = w.fs.cwd
        ∧ (∀ (other : Str) (n : Node), os_Stat w.fs other = .ok n →
            (∀ e2 ∈ entries, lexLoc w.fs.cwd (path_Join [dst, e2.Name]) ≠ lexLoc w.fs.cwd other) →
            os_Stat w2.fs other = .ok n)
        ∧ ∀ (before : List ZipFile) (e : ZipFile) (after : List ZipFile),
            entries = before ++ e :: after →
            (∀ e2 ∈ after, lexLoc w.fs.cwd (path_Join [dst, e2.Name])
              ≠ lexLoc w.fs.cwd (path_Join [dst, e.Name])) →
            ∃ data, e.Open = .ok { data := data, err := none }
              ∧ os_Stat w2.fs (path_Join [dst, e.Name]) = .ok (.file data)
  | [], w, w2, h => by
    simp only [writeZipFiles, Res.ret.injEq, true_and] at h
    subst h
    refine ⟨rfl, fun _ _ hs _ => hs, ?_⟩
    intro before e after hsplit
    simp at hsplit
  | e0 :: rest, w, w2, h => by
    unfold writeZipFiles at h
    cases h0 : writeZipFile L dst e0 w with
    | fatal msg w1 => rw [h0] at h; cases h
    | ret r w1 =>
      rw [h0] at h
      cases r with
      | some err => cases h
      | none =>
        simp only at h
        obtain ⟨data0, hopen0, hstat0, hcwd0, hframe0⟩ := writeZipFile_ret_nil h0
        obtain ⟨hcwd, hframe, hrest⟩ := writeZipFiles_ret_nil L dst rest w1 w2 h
        rw [hcwd0] at hframe hrest
        refine ⟨hcwd.trans hcwd0, ?_, ?_⟩
        · intro other n hs hne
          apply hframe other n
          · exact hframe0 other n hs (fun e => hne e0 (by simp) e.symm)
          · exact fun e2 he2 => hne e2 (by simp [he2])
        · intro before e after hsplit hne
          cases before with
          | nil =>
            simp only [List.nil_append, List.cons.injEq] at hsplit
            obtain ⟨he, hafter⟩ := hsplit
            subst he hafter
            exact ⟨data0, hopen0, hframe _ _ hstat0 hne⟩
          | cons b bs =>
            simp only [List.cons_append, List.cons.injEq] at hsplit
            exact hrest bs e after hsplit.2 hne

/-! ## path.Clean follows the four rules -/

theorem intercalate_concat (sep : Char) : ∀ (els : List Str) (e : Str), els ≠ [] →
    [sep].intercalate (els ++ [e]) = [sep].intercalate els ++ sep :: e
  | [], _, h => absurd rfl h
  | [a], e, _ => by
    have h1 : [sep].intercalate [e] = e := by simp [List.intercalate]
    have h2 : [sep].intercalate [a] = a := by simp [List.intercalate]
    rw [List.singleton_append, intercalate_cons_cons, h1, h2]
  | a :: b :: l, e, _ => by
    have ih := intercalate_concat sep (b :: l) e (by simp)
    rw [List.cons_append, List.cons_append, intercalate_cons_cons, ← List.cons_append, ih,
      intercalate_cons_cons]
    simp

theorem render_nil (rooted : Bool) : render rooted [] = if rooted then ['/'] else [] := by
  simp [render, List.intercalate]

theorem render_singleton (rooted : Bool) (e : Str) :
    render rooted [e] = (if rooted then ['/'] else []) ++ e := by
  simp [render, List.intercalate]

theorem render_concat (rooted : Bool) (els : List Str) (e : Str) (h : els ≠ []) :
    render rooted (els ++ [e]) = render rooted els ++ '/' :: e := by
  simp [render, intercalate_concat '/' els e h]

theorem render_length_concat (rooted : Bool) (els : List Str) (e : Str) :
    (render rooted els).length + e.length ≤ (render rooted (els ++ [e])).length := by
  cases els with
  | nil => simp [render_nil, render_singleton]
  | cons a l =>
    rw [render_concat rooted (a :: l) e (by simp)]
    simp

theorem render_length_append (rooted : Bool) (A : List Str) : ∀ B : List Str,
    (render rooted A).length ≤ (render rooted (A ++ B)).length := by
  intro B
  induction B using List.reverseRecOn with
  | nil => simp
  | append_singleton B e ih =>
    have := render_length_concat rooted (A ++ B) e
    rw [← List.append_assoc]
    omega

theorem render_length_nil_le (rooted : Bool) (els : List Str) :
    (render rooted []).length ≤ (render rooted els).length := by
  simpa using render_length_append rooted [] els

theorem render_length_lt (rooted : Bool) (els : List Str) (hne : els ≠ [])
    (hpos : ∀ e ∈ els, e ≠ []) : (render rooted []).length < (render rooted els).length := by
  rcases List.eq_nil_or_concat els with h | ⟨l, e, h⟩
  · exact absurd h hne
  · subst h
    have h1 := render_length_concat rooted l e
    have h2 := render_length_nil_le rooted l
    have h3 : e ≠ [] := hpos e (by simp)
    have h4 : 0 < e.length := List.length_pos.2 h3
    simp only [List.concat_eq_append]
    omega

/-! ### Backtracking -/

theorem backtrackLoop_skip (dd : Nat) : ∀ (xs : List Char) (last : Char) (tl : List Char),
    (∀ c ∈ xs, c ≠ '/') → last ≠ '/' → dd ≤ tl.length →
      ∃ l2, l2 ≠ '/' ∧ backtrackLoop dd last (xs ++ tl) = backtrackLoop dd l2 tl
  | [], last, tl, _, hl, _ => ⟨last, hl, rfl⟩
  | c :: xs, last, tl, hx, hl, hd => by
    have hc : c ≠ '/' := hx c (by simp)
    obtain ⟨l2, h2, h3⟩ := backtrackLoop_skip dd xs c tl (fun a ha => hx a (by simp [ha])) hc hd
    refine ⟨l2, h2, ?_⟩
    rw [← h3]
    have hlen : (c :: (xs ++ tl)).length > dd := by
      simp only [List.length_cons, List.length_append]
      omega
    simp only [List.cons_append, backtrackLoop]
    rw [if_pos ⟨hlen, hl⟩]
    rfl

theorem backtrackLoop_slash (dd : Nat) (l2 : Char) (r : List Char) (h2 : l2 ≠ '/')
    (hd : dd ≤ r.length) : backtrackLoop dd l2 ('/' :: r) = r := by
  simp only [backtrackLoop]
  rw [if_pos ⟨by simp only [List.length_cons]; omega, h2⟩]
  cases r with
  | nil => rfl
  | cons c cs => simp [backtrackLoop]

/-- Backtracking over a name that follows a slash leaves what was before the slash. -/
theorem backtrack_slash_name (dd : Nat) (R n : Str) (hn : n ≠ []) (hs : '/' ∉ n)
    (hd : dd ≤ R.length) : backtrack dd (R ++ '/' :: n) = R := by
  unfold backtrack
  have hrev : (R ++ '/' :: n).reverse = n.reverse ++ '/' :: R.reverse := by simp
  rw [hrev]
  cases hnr : n.reverse with
  | nil => exact absurd (List.reverse_eq_nil_iff.1 hnr) hn
  | cons last xs =>
    have hmem : ∀ c ∈ last :: xs, c ≠ '/' := by
      intro c hc e
      rw [← hnr] at hc
      exact hs (e ▸ List.mem_reverse.1 hc)
    obtain ⟨l2, h2, h3⟩ := backtrackLoop_skip dd xs last ('/' :: R.reverse)
      (fun c hc => hmem c (by simp [hc])) (hmem last (by simp))
      (by simp only [List.length_cons, List.length_reverse]; omega)
    simp only [List.cons_append]
    rw [h3, backtrackLoop_slash dd l2 _ h2 (by simpa using hd)]
    simp

/-- Backtracking over a name that is all of the buffer, or follows the slash
of the root, leaves nothing, or the root. -/
theorem backtrack_first_name (rooted : Bool) (n : Str) (hn : n ≠ []) (hs : '/' ∉ n) :
    backtrack (render rooted []).length (render rooted [] ++ n) = render rooted [] := by
  unfold backtrack
  cases hnr : n.reverse with
  | nil => exact absurd (List.reverse_eq_nil_iff.1 hnr) hn
  | cons last xs =>
    have hmem : ∀ c ∈ last :: xs, c ≠ '/' := by
      intro c hc e
      rw [← hnr] at hc
      exact hs (e ▸ List.mem_reverse.1 hc)
    have hrev : (render rooted [] ++ n).reverse = last :: (xs ++ (render rooted []).reverse) := by
      simp [hnr]
    rw [hrev]
    obtain ⟨l2, h2, h3⟩ := backtrackLoop_skip (render rooted []).length xs last
      (render rooted []).reverse (fun c hc => hmem c (by simp [hc])) (hmem last (by simp))
      (by simp)
    simp only
    rw [h3]
    cases rooted with
    | true => simp [render_nil, backtrackLoop]
    | false => simp [render_nil, backtrackLoop]

/-! ### Reading elements -/

theorem Norm.push_nil (rooted : Bool) (N : Norm) : N.push rooted [] = N := by
  simp [Norm.push]

theorem readElems_nil (rooted : Bool) (N : Norm) : readElems rooted N [] = N := by
  simp [readElems, pathElems, splitOnChar, Norm.push_nil]

theorem readElems_slash (rooted : Bool) (N : Norm) (t : Str) :
    readElems rooted N ('/' :: t) = readElems rooted N t := by
  simp [readElems, pathElems, splitOnChar, Norm.push_nil]

theorem dropWhile_of_mem {sep : Char} : ∀ {s : Str}, sep ∈ s →
    ∃ r, s.dropWhile (· ≠ sep) = sep :: r
  | [], h => by simp at h
  | c :: cs, h => by
    by_cases hc : c = sep
    · exact ⟨cs, by simp [hc]⟩
    · have hcs : sep ∈ cs := by
        rcases List.mem_cons.1 h with e | e
        · exact absurd e.symm hc
        · exact e
      obtain ⟨r, hr⟩ := dropWhile_of_mem hcs
      exact ⟨r, by simpa [hc] using hr⟩

theorem takeWhile_of_not_mem {sep : Char} : ∀ {s : Str}, sep ∉ s →
    s.takeWhile (· ≠ sep) = s ∧ s.dropWhile (· ≠ sep) = []
  | [], _ => by simp
  | c :: cs, h => by
    have hc : c ≠ sep := fun e => h (by simp [e])
    have hcs : sep ∉ cs := fun e => h (by simp [e])
    obtain ⟨h1, h2⟩ := takeWhile_of_not_mem hcs
    constructor
    · simpa [hc] using h1
    · simpa [hc] using h2

theorem not_mem_takeWhile (sep : Char) : ∀ s : Str, sep ∉ s.takeWhile (· ≠ sep)
  | [] => by simp
  | c :: cs => by
    by_cases hc : c = sep
    · simp [hc]
    · have := not_mem_takeWhile sep cs
      simpa [hc, Ne.symm hc] using this

/-- Reading a path is reading its first element, then the rest. -/
theorem readElems_step (rooted : Bool) (N : Norm) (s : Str) :
    readElems rooted N s
      = readElems rooted (N.push rooted (s.takeWhile (· ≠ '/'))) (s.dropWhile (· ≠ '/')) := by
  by_cases hm : '/' ∈ s
  · obtain ⟨r, hr⟩ := dropWhile_of_mem hm
    rw [hr, readElems_slash]
    unfold readElems pathElems
    rw [splitOnChar_cut hm, hr]
    simp
  · obtain ⟨h1, h2⟩ := takeWhile_of_not_mem hm
    rw [h1, h2, readElems_nil]
    unfold readElems pathElems
    rw [splitOnChar_of_not_mem hm]
    simp

/-! ### One iteration keeps the invariant -/

theorem Norm.elems_ne_nil (N : Norm) (hn : ∀ n ∈ N.names, isName n = true ∧ '/' ∉ n) :
    ∀ e ∈ N.elems, e ≠ [] := by
  intro e he
  unfold Norm.elems at he
  rcases List.mem_append.1 he with h | h
  · rw [List.eq_of_mem_replicate h]
    simp
  · have := (hn e h).1
    intro h0
    subst h0
    simp [isName] at this

theorem cleanInv_name {rooted : Bool} {st : CleanState} {N : Norm} (hinv : CleanInv rooted st N)
    (el r : Str) (hel : isName el = true) (hs : '/' ∉ el) :
    CleanInv rooted
      { st with
        rest := r
        out := (if (rooted ∧ st.out.length ≠ 1) ∨ (¬ rooted ∧ st.out.length ≠ 0)
          then st.out ++ ['/'] else st.out) ++ el }
      (N.push rooted el) := by
  obtain ⟨hr, hn, hout, hdd⟩ := hinv
  have h1 : el ≠ [] := by intro h; subst h; simp [isName] at hel
  have h2 : el ≠ ['.'] := by intro h; subst h; simp [isName] at hel
  have h3 : el ≠ ['.', '.'] := by intro h; subst h; simp [isName] at hel
  have hpush : N.push rooted el = { N with names := N.names ++ [el] } := by
    simp [Norm.push, h1, h2, h3]
  rw [hpush]
  refine ⟨hr, ?_, ?_, hdd⟩
  · intro n hmem
    rcases List.mem_append.1 hmem with h | h
    · exact hn n h
    · simp only [List.mem_singleton] at h
      subst h
      exact ⟨hel, hs⟩
  · have helems : ({ N with names := N.names ++ [el] } : Norm).elems = N.elems ++ [el] := by
      simp [Norm.elems]
    simp only [helems]
    by_cases he : N.elems = []
    · rw [he] at hout
      rw [he, hout]
      cases rooted with
      | true => simp [render_nil, render_singleton]
      | false => simp [render_nil, render_singleton]
    · have hlt := render_length_lt rooted N.elems he (N.elems_ne_nil hn)
      rw [← hout] at hlt
      rw [render_concat rooted N.elems el he, ← hout]
      cases rooted with
      | true =>
        simp only [render_nil, if_true, List.length_singleton] at hlt
        have : st.out.length ≠ 1 := by omega
        simp [this]
      | false =>
        simp only [render_nil, Bool.false_eq_true, if_false, List.length_nil] at hlt
        have : st.out.length ≠ 0 := by omega
        simp [this]

theorem cleanInv_dotdot {rooted : Bool} {st : CleanState} {N : Norm} (hinv : CleanInv rooted st N)
    (r : Str) :
    CleanInv rooted
      (if st.out.length > st.dotdot then
        { st with rest := r, out := backtrack st.dotdot st.out }
      else if ¬ rooted then
        { rest := r
          out := (if st.out.length > 0 then st.out ++ ['/'] else st.out) ++ ['.', '.']
          dotdot := ((if st.out.length > 0 then st.out ++ ['/'] else st.out)
            ++ ['.', '.']).length }
      else { st with rest := r })
      (N.push rooted ['.', '.']) := by
  obtain ⟨hr, hn, hout, hdd⟩ := hinv
  have hne := N.elems_ne_nil hn
  rcases List.eq_nil_or_concat N.names with hnames | ⟨ns, n, hnames⟩
  · -- no name to drop
    have helems : N.elems = List.replicate N.ups ['.', '.'] := by simp [Norm.elems, hnames]
    have hlen : ¬ st.out.length > st.dotdot := by
      rw [hout, hdd, helems]
      omega
    rw [if_neg hlen]
    cases rooted with
    | true =>
      have hpush : N.push true ['.', '.'] = N := by simp [Norm.push, hnames]
      rw [hpush]
      simp only [not_true_eq_false, if_false]
      exact ⟨hr, hn, hout, hdd⟩
    | false =>
      have hpush : N.push false ['.', '.'] = { N with ups := N.ups + 1 } := by
        simp [Norm.push, hnames]
      rw [hpush]
      simp only [Bool.false_eq_true, not_false_eq_true, if_true]
      have hrender : (if st.out.length > 0 then st.out ++ ['/'] else st.out) ++ ['.', '.']
          = render false (List.replicate (N.ups + 1) ['.', '.']) := by
        rw [List.replicate_succ']
        by_cases h0 : N.ups = 0
        · have : st.out = [] := by rw [hout, helems, h0]; simp [render_nil]
          simp [this, h0, render_singleton]
        · have hrep : List.replicate N.ups ['.', '.'] ≠ [] := by
            cases hu : N.ups with
            | zero => exact absurd hu h0
            | succ k => simp [List.replicate_succ]
          have hlt := render_length_lt false _ hrep (by rw [← helems]; exact hne)
          rw [← helems, ← hout] at hlt
          simp only [render_nil, Bool.false_eq_true, if_false, List.length_nil] at hlt
          rw [render_concat false _ _ hrep, ← helems, ← hout, if_pos hlt]
          simp
      refine ⟨fun h => (by cases h), ?_, ?_, ?_⟩
      · simpa using hn
      · simp only [Norm.elems, hnames, List.append_nil]
        exact hrender
      · simp only [hrender]
  · -- the last name is dropped
    simp only [List.concat_eq_append] at hnames
    have hnm := hn n (by rw [hnames]; simp)
    have hn0 : n ≠ [] := by intro h; subst h; simp [isName] at hnm
    have hpush : N.push rooted ['.', '.'] = { N with names := ns } := by
      simp [Norm.push, hnames]
    rw [hpush]
    have helems : N.elems = (List.replicate N.ups ['.', '.'] ++ ns) ++ [n] := by
      simp [Norm.elems, hnames]
    have hle : st.dotdot ≤ (render rooted (List.replicate N.ups ['.', '.'] ++ ns)).length := by
      rw [hdd]
      exact render_length_append rooted _ ns
    have hback : st.out.length > st.dotdot
        ∧ backtrack st.dotdot st.out = render rooted (List.replicate N.ups ['.', '.'] ++ ns) := by
      by_cases he : List.replicate N.ups ['.', '.'] ++ ns = []
      · have hrep : List.replicate N.ups ['.', '.'] = [] := (List.append_eq_nil.1 he).1
        have hout2 : st.out = render rooted [] ++ n := by
          rw [hout, helems, he]
          cases rooted <;> simp [render_nil, render_singleton]
        have hdd2 : st.dotdot = (render rooted []).length := by rw [hdd, hrep]
        rw [he, hout2, hdd2]
        refine ⟨?_, backtrack_first_name rooted n hn0 hnm.2⟩
        have := List.length_pos.2 hn0
        simp only [List.length_append]
        omega
      · have hout2 : st.out
            = render rooted (List.replicate N.ups ['.', '.'] ++ ns) ++ '/' :: n := by
          rw [hout, helems, render_concat rooted _ n he]
        rw [hout2]
        refine ⟨?_, backtrack_slash_name _ _ n hn0 hnm.2 hle⟩
        simp only [List.length_append, List.length_cons]
        omega
    rw [if_pos hback.1]
    refine ⟨hr, fun m hm => hn m (by rw [hnames]; simp [hm]), ?_, hdd⟩
    simp only [Norm.elems]
    exact hback.2

theorem takeWhile_eq_nil_head {sep : Char} : ∀ {s : Str}, s.takeWhile (· ≠ sep) = [] →
    s = [] ∨ s.head? = some sep
  | [], _ => Or.inl rfl
  | c :: cs, h => by
    by_cases hc : c = sep
    · right; simp [hc]
    · simp [hc] at h

theorem dropWhile_length_le (sep : Char) : ∀ s : Str,
    (s.dropWhile (· ≠ sep)).length ≤ s.length
  | [] => by simp
  | c :: cs => by
    have ih := dropWhile_length_le sep cs
    rw [List.dropWhile_cons]
    split
    · simp only [List.length_cons]
      omega
    · exact Nat.le_refl _

theorem cleanInv_rest {rooted : Bool} {st : CleanState} {N : Norm} (hinv : CleanInv rooted st N)
    (r : Str) : CleanInv rooted { st with rest := r } N := hinv

/-- One iteration of the loop of `path.Clean` reads one element, or a slash. -/
theorem cleanStep_spec {rooted : Bool} {st : CleanState} {N : Norm} (hinv : CleanInv rooted st N)
    {c : Char} {t : Str} (hrest : st.rest = c :: t) :
    ∃ N2, CleanInv rooted (cleanStep rooted st) N2
      ∧ readElems rooted N (c :: t) = readElems rooted N2 (cleanStep rooted st).rest
      ∧ (cleanStep rooted st).rest.length < (c :: t).length := by
  unfold cleanStep
  rw [hrest]
  simp only
  by_cases h1 : c = '/'
  · rw [if_pos h1]
    refine ⟨N, cleanInv_rest hinv t, ?_, by simp⟩
    subst h1
    exact readElems_slash rooted N t
  rw [if_neg h1]
  by_cases h2 : c = '.' ∧ (t = [] ∨ t.head? = some '/')
  · rw [if_pos h2]
    refine ⟨N, cleanInv_rest hinv t, ?_, by simp⟩
    obtain ⟨hc, ht⟩ := h2
    subst hc
    rw [readElems_step]
    have hpush : N.push rooted ['.'] = N := by simp [Norm.push]
    rcases ht with ht | ht
    · subst ht
      simp [hpush]
    · cases t with
      | nil => simp at ht
      | cons a l =>
        simp only [List.head?_cons, Option.some.injEq] at ht
        subst ht
        simp [hpush]
  rw [if_neg h2]
  by_cases h3 : c = '.' ∧ t.head? = some '.' ∧ (t.tail = [] ∨ t.tail.head? = some '/')
  · rw [if_pos h3]
    obtain ⟨hc, hh, ht⟩ := h3
    subst hc
    cases t with
    | nil => simp at hh
    | cons a t2 =>
      simp only [List.head?_cons, Option.some.injEq] at hh
      subst hh
      simp only [List.tail_cons] at ht ⊢
      have hread : readElems rooted N ('.' :: '.' :: t2)
          = readElems rooted (N.push rooted ['.', '.']) t2 := by
        rw [readElems_step]
        rcases ht with ht | ht
        · subst ht
          simp
        · cases t2 with
          | nil => simp at ht
          | cons b l =>
            simp only [List.head?_cons, Option.some.injEq] at ht
            subst ht
            simp
      have hinv2 := cleanInv_dotdot hinv t2
      refine ⟨N.push rooted ['.', '.'], hinv2, ?_, ?_⟩
      · rw [hread]
        congr 1
        split
        · rfl
        · split <;> rfl
      · have : ∀ s : CleanState, s.rest = t2 → s.rest.length < ('.' :: '.' :: t2).length := by
          intro s hs
          rw [hs]
          simp only [List.length_cons]
          omega
        apply this
        split
        · rfl
        · split <;> rfl
  rw [if_neg h3]
  have hel : (c :: t).takeWhile (· ≠ '/') = c :: t.takeWhile (· ≠ '/') := by simp [h1]
  have hdrop : (c :: t).dropWhile (· ≠ '/') = t.dropWhile (· ≠ '/') := by simp [h1]
  have hname : isName ((c :: t).takeWhile (· ≠ '/')) = true := by
    rw [hel]
    have e2 : c :: t.takeWhile (· ≠ '/') ≠ ['.'] := by
      intro h
      simp only [List.cons.injEq] at h
      exact h2 ⟨h.1, takeWhile_eq_nil_head h.2⟩
    have e3 : c :: t.takeWhile (· ≠ '/') ≠ ['.', '.'] := by
      intro h
      simp only [List.cons.injEq] at h
      obtain ⟨hc, ht⟩ := h
      cases t with
      | nil => simp at ht
      | cons a l =>
        by_cases ha : a = '/'
        · simp [ha] at ht
        · have ht2 : a = '.' ∧ l.takeWhile (· ≠ '/') = [] := by simpa [ha] using ht
          exact h3 ⟨hc, by simp [ht2.1], by simpa using takeWhile_eq_nil_head ht2.2⟩
    exact decide_eq_true ⟨by simp, e2, e3⟩
  have hslash : '/' ∉ (c :: t).takeWhile (· ≠ '/') := not_mem_takeWhile '/' _
  refine ⟨_, cleanInv_name hinv _ ((c :: t).dropWhile (· ≠ '/')) hname hslash,
    readElems_step rooted N (c :: t), ?_⟩
  simp only [hdrop, List.length_cons]
  have := dropWhile_length_le '/' t
  omega

/-- The loop of `path.Clean` reads all the elements of the path. -/
theorem cleanLoop_spec (rooted : Bool) : ∀ (fuel : Nat) (st : CleanState) (N : Norm),
    st.rest.length ≤ fuel → CleanInv rooted st N →
      CleanInv rooted (cleanLoop rooted fuel st) (readElems rooted N st.rest)
  | 0, st, N, hlen, hinv => by
    have : st.rest = [] := List.eq_nil_of_length_eq_zero (by omega)
    rw [this, readElems_nil]
    exact hinv
  | fuel + 1, st, N, hlen, hinv => by
    unfold cleanLoop
    cases hr : st.rest with
    | nil =>
      simp only
      rw [readElems_nil]
      exact hinv
    | cons c t =>
      simp only
      obtain ⟨N2, hinv2, hread, hlt⟩ := cleanStep_spec hinv hr
      rw [hread]
      apply cleanLoop_spec rooted fuel _ N2 _ hinv2
      rw [hr] at hlen
      simp only [List.length_cons] at hlen hlt
      omega

/-- Go `path.Clean` returns the text of the elements of the path, cleaned by the
four rules, and `.` when nothing is left. -/
theorem path_Clean_eq (path : Str) (hne : path ≠ []) :
    path_Clean path
      = if (render (path.head? = some '/') (normalize (path.head? = some '/') path).elems).length = 0
        then ['.']
        else render (path.head? = some '/') (normalize (path.head? = some '/') path).elems := by
  unfold path_Clean
  rw [if_neg hne]
  simp only
  cases path with
  | nil => exact absurd rfl hne
  | cons c t =>
    by_cases hc : c = '/'
    · subst hc
      have hinv0 : CleanInv true { rest := t, out := ['/'], dotdot := 1 } { ups := 0, names := [] } :=
        ⟨fun _ => rfl, by simp, by simp [Norm.elems, render_nil], by simp [render_nil]⟩
      have hinv := cleanLoop_spec true (t.length + 1) _ _ (by simp) hinv0
      have hnorm : normalize true ('/' :: t) = readElems true { ups := 0, names := [] } t := by
        unfold normalize
        exact readElems_slash true _ t
      simp only [List.head?_cons, decide_True, if_true, List.tail_cons, List.length_cons, hnorm]
      rw [← hinv.2.2.1]
    · have hinv0 : CleanInv false { rest := c :: t, out := [], dotdot := 0 }
          { ups := 0, names := [] } :=
        ⟨fun h => (by cases h), by simp, by simp [Norm.elems, render_nil], by simp [render_nil]⟩
      have hinv := cleanLoop_spec false (t.length + 1) _ _ (by simp) hinv0
      have hnorm : normalize false (c :: t)
          = readElems false { ups := 0, names := [] } (c :: t) := rfl
      have hd : (decide (some c = some '/')) = false := by simp [hc]
      simp only [List.head?_cons, hd, Bool.false_eq_true, if_false, List.length_cons, hnorm]
      rw [← hinv.2.2.1]

/-! ### The shape of a cleaned path -/

theorem Norm.push_proper (rooted : Bool) (N : Norm) (e : Str) (he : '/' ∉ e)
    (hN : (rooted = true → N.ups = 0) ∧ ∀ n ∈ N.names, isName n = true ∧ '/' ∉ n) :
    (rooted = true → (N.push rooted e).ups = 0)
      ∧ ∀ n ∈ (N.push rooted e).names, isName n = true ∧ '/' ∉ n := by
  unfold Norm.push
  split
  · exact hN
  · rename_i h1
    split
    · split
      · exact ⟨hN.1, fun n hn => hN.2 n (List.mem_of_mem_dropLast hn)⟩
      · split
        · exact hN
        · rename_i hr
          exact ⟨fun h => absurd h hr, hN.2⟩
    · rename_i h2
      refine ⟨hN.1, fun n hn => ?_⟩
      rcases List.mem_append.1 hn with h | h
      · exact hN.2 n h
      · simp only [List.mem_singleton] at h
        subst h
        push_neg at h1
        exact ⟨decide_eq_true ⟨h1.1, h1.2, h2⟩, he⟩

theorem foldl_push_proper (rooted : Bool) : ∀ (es : List Str) (N : Norm),
    (∀ e ∈ es, '/' ∉ e) →
    ((rooted = true → N.ups = 0) ∧ ∀ n ∈ N.names, isName n = true ∧ '/' ∉ n) →
    (rooted = true → (es.foldl (Norm.push rooted) N).ups = 0)
      ∧ ∀ n ∈ (es.foldl (Norm.push rooted) N).names, isName n = true ∧ '/' ∉ n
  | [], _, _, hN => hN
  | e :: es, N, hes, hN => by
    simp only [List.foldl_cons]
    exact foldl_push_proper rooted es _ (fun a ha => hes a (by simp [ha]))
      (Norm.push_proper rooted N e (hes e (by simp)) hN)

theorem normalize_proper (rooted : Bool) (path : Str) :
    (rooted = true → (normalize rooted path).ups = 0)
      ∧ ∀ n ∈ (normalize rooted path).names, isName n = true ∧ '/' ∉ n :=
  foldl_push_proper rooted _ _ (splitOnChar_not_mem '/' path) ⟨fun _ => rfl, by simp⟩

theorem Norm.push_name (rooted : Bool) (N : Norm) (a : Str) (ha : isName a = true) :
    N.push rooted a = { N with names := N.names ++ [a] } := by
  have h1 : a ≠ [] := by intro h; subst h; simp [isName] at ha
  have h2 : a ≠ ['.'] := by intro h; subst h; simp [isName] at ha
  have h3 : a ≠ ['.', '.'] := by intro h; subst h; simp [isName] at ha
  simp [Norm.push, h1, h2, h3]

theorem pathElems_render (rooted : Bool) (els : List Str) (hne : els ≠ [])
    (hs : ∀ e ∈ els, '/' ∉ e) :
    pathElems (render rooted els) = (if rooted then [[]] else []) ++ els := by
  unfold pathElems render
  cases rooted with
  | true =>
    simp only [if_true, List.singleton_append]
    rw [show splitOnChar '/' ('/' :: ['/'].intercalate els)
      = [] :: splitOnChar '/' (['/'].intercalate els) by simp [splitOnChar]]
    rw [splitOnChar_of_intercalate '/' els hne hs]
  | false =>
    simp only [Bool.false_eq_true, if_false, List.nil_append]
    exact splitOnChar_of_intercalate '/' els hne hs

/-- A path whose last element is a name is cleaned to a path of the shape
`..` elements, then names. -/
theorem path_Clean_shaped (path : Str) (es : List Str) (a : Str)
    (h : pathElems path = es ++ [a]) (ha : isName a = true) : Shaped (path_Clean path) := by
  have hne : path ≠ [] := by
    intro h0
    subst h0
    have : es ++ [a] = [[]] := by rw [← h]; rfl
    rcases List.eq_nil_or_concat es with he | ⟨l, x, he⟩
    · subst he
      simp only [List.nil_append, List.cons.injEq, and_true] at this
      subst this
      simp [isName] at ha
    · subst he
      have hl := congrArg List.length this
      simp at hl
  obtain ⟨hups, hprop⟩ := normalize_proper (path.head? = some '/') path
  have hnames : ∃ ns, (normalize (path.head? = some '/') path).names = ns ++ [a] := by
    unfold normalize
    rw [h, List.foldl_append]
    simp only [List.foldl_cons, List.foldl_nil]
    rw [Norm.push_name _ _ a ha]
    exact ⟨_, rfl⟩
  obtain ⟨ns, hns⟩ := hnames
  have helne : (normalize (path.head? = some '/') path).elems ≠ [] := by
    simp [Norm.elems, hns]
  have hpos := render_length_lt (path.head? = some '/') _ helne
    (Norm.elems_ne_nil _ hprop)
  rw [path_Clean_eq path hne, if_neg (by omega)]
  refine ⟨?_, ?_⟩
  · intro h0
    rw [h0] at hpos
    simp at hpos
  · have hslash : ∀ e ∈ (normalize (path.head? = some '/') path).elems, '/' ∉ e := by
      intro e he
      unfold Norm.elems at he
      rcases List.mem_append.1 he with h1 | h1
      · rw [List.eq_of_mem_replicate h1]
        decide
      · exact (hprop e h1).2
    rw [pathElems_render _ _ helne hslash]
    refine ⟨(if (decide (path.head? = some '/')) = true then [[]] else [])
        ++ List.replicate (normalize (path.head? = some '/') path).ups ['.', '.'],
      (normalize (path.head? = some '/') path).names, ?_, ?_, ?_, ?_⟩
    · simp [Norm.elems]
    · intro e he
      rcases List.mem_append.1 he with h1 | h1
      · split at h1
        · simp only [List.mem_singleton] at h1
          subst h1
          rfl
        · simp at h1
      · rw [List.eq_of_mem_replicate h1]
        rfl
    · exact fun n hn => (hprop n hn).1
    · simp [hns]

/-- The mods directory of `main` has the shape of a cleaned path. -/
theorem modsPath_shaped (gameRoot : Str) :
    Shaped (path_Join [gameRoot, "FactoryGame/Mods".toList]) := by
  unfold path_Join
  rw [if_neg (by simp)]
  by_cases hg : gameRoot = []
  · subst hg
    exact path_Clean_shaped _ ["FactoryGame".toList] "Mods".toList (by decide) (by decide)
  · have hbuf : joinBuf [] [gameRoot, "FactoryGame/Mods".toList]
        = gameRoot ++ '/' :: "FactoryGame/Mods".toList := by
      have hpos : gameRoot.length > 0 := List.length_pos.2 hg
      simp [joinBuf, hg, hpos]
    rw [hbuf]
    apply path_Clean_shaped _ (pathElems gameRoot ++ ["FactoryGame".toList]) "Mods".toList
    · rw [pathElems_append_slash_eq]
      have : pathElems "FactoryGame/Mods".toList = ["FactoryGame".toList, "Mods".toList] := by
        decide
      rw [this]
      simp
    · decide

/-! ### The directory of an entry -/

theorem lastSlashEnd_of_not_mem : ∀ {s : Str}, '/' ∉ s → lastSlashEnd s = 0
  | [], _ => rfl
  | c :: cs, h => by
    have hc : c ≠ '/' := fun e => h (by simp [e])
    have hcs : '/' ∉ cs := fun e => h (by simp [e])
    simp [lastSlashEnd, hc, hcs]

theorem lastSlashEnd_append : ∀ (dir file : Str), '/' ∉ file →
    lastSlashEnd (dir ++ '/' :: file) = dir.length + 1
  | [], file, h => by
    simp [lastSlashEnd, h]
  | c :: cs, file, h => by
    have ih := lastSlashEnd_append cs file h
    have hstep : lastSlashEnd (c :: (cs ++ '/' :: file))
        = lastSlashEnd (cs ++ '/' :: file) + 1 := by
      simp [lastSlashEnd]
    rw [List.cons_append, hstep, ih]
    simp

/-- The directory part that `path.Split` finds in a name that ends in a file name. -/
theorem path_Split_append (dir file : Str) (h : '/' ∉ file) :
    (path_Split (dir ++ '/' :: file)).1 = dir ++ ['/'] := by
  unfold path_Split
  simp only [lastSlashEnd_append dir file h]
  rw [show dir ++ '/' :: file = (dir ++ ['/']) ++ file by simp]
  rw [List.take_left' (by simp)]

theorem pathElems_of_not_mem {s : Str} (h : '/' ∉ s) : pathElems s = [s] :=
  splitOnChar_of_not_mem h

theorem os_Stat_root (fs : FS) : os_Stat fs ['/'] = .ok .dir := by
  apply os_Stat_eq_ok.2
  refine ⟨[], ?_, by simp [FS.get]⟩
  simp [namei, startLoc, pathElems, splitOnChar, walk, FS.get, stepLoc]

theorem os_Stat_dot {fs : FS} {file : Str} {n : Node} (hs : '/' ∉ file) (hne : file ≠ [])
    (h : os_Stat fs file = .ok n) : os_Stat fs ['.'] = .ok .dir := by
  obtain ⟨p, hp, _⟩ := os_Stat_eq_ok.1 h
  unfold namei at hp
  rw [if_neg hne, pathElems_of_not_mem hs] at hp
  have hstart : startLoc fs file = fs.cwd := by
    cases file with
    | nil => exact absurd rfl hne
    | cons c cs =>
      have hc : c ≠ '/' := fun e => hs (by simp [e])
      simp [startLoc, hc]
  rw [hstart] at hp
  have hd := walk_cons_dir fs hp
  apply os_Stat_eq_ok.2
  refine ⟨fs.cwd, ?_, hd⟩
  simp [namei, startLoc, pathElems, splitOnChar, walk, hd, stepLoc]

/-- Where a file written at `path.Join(dst, dir + "/" + file)` exists, the
directory `path.Join(dst, dir + "/")` that writeZipFile asks for exists. -/
theorem os_Stat_join_dir {fs : FS} (dst dir file : Str) {n : Node} (hs : '/' ∉ file)
    (hname : isName file = true)
    (h : os_Stat fs (path_Join [dst, dir ++ '/' :: file]) = .ok n) :
    os_Stat fs (path_Join [dst, dir ++ ['/']]) = .ok .dir := by
  have hfne : file ≠ [] := by intro h0; subst h0; simp [isName] at hname
  -- both buffers are `Y` followed by a slash
  obtain ⟨Y, hB1, hB2⟩ : ∃ Y, joinBuf [] [dst, dir ++ '/' :: file] = Y ++ '/' :: file
      ∧ joinBuf [] [dst, dir ++ ['/']] = Y ++ '/' :: [] := by
    by_cases hd : dst = []
    · exact ⟨dir, by simp [joinBuf, hd], by simp [joinBuf, hd]⟩
    · have hpos : dst.length > 0 := List.length_pos.2 hd
      exact ⟨dst ++ '/' :: dir, by simp [joinBuf, hd, hpos], by simp [joinBuf, hd, hpos]⟩
  have hJ1 : path_Join [dst, dir ++ '/' :: file] = path_Clean (Y ++ '/' :: file) := by
    unfold path_Join
    rw [if_neg (by simp), hB1]
  have hJ2 : path_Join [dst, dir ++ ['/']] = path_Clean (Y ++ '/' :: []) := by
    unfold path_Join
    rw [if_neg (by simp), hB2]
  rw [hJ1] at h
  rw [hJ2]
  have hhead : ∀ b : Str, (Y ++ '/' :: b).head? = (Y ++ ['/']).head? := by
    intro b
    cases Y <;> simp
  have hnorm1 : normalize ((Y ++ '/' :: file).head? = some '/') (Y ++ '/' :: file)
      = (readElems ((Y ++ ['/']).head? = some '/') { ups := 0, names := [] } Y).push
          ((Y ++ ['/']).head? = some '/') file := by
    unfold normalize readElems
    rw [hhead, pathElems_append_slash_eq, pathElems_of_not_mem hs, List.foldl_append]
    rfl
  have hnorm2 : normalize ((Y ++ '/' :: []).head? = some '/') (Y ++ '/' :: [])
      = readElems ((Y ++ ['/']).head? = some '/') { ups := 0, names := [] } Y := by
    unfold normalize readElems
    rw [pathElems_append_slash_eq, List.foldl_append]
    simp [pathElems, splitOnChar, Norm.push_nil]
  have hprop := foldl_push_proper ((Y ++ ['/']).head? = some '/') (pathElems Y)
    { ups := 0, names := [] } (splitOnChar_not_mem '/' Y) ⟨fun _ => rfl, by simp⟩
  rw [path_Clean_eq _ (by simp), hnorm1, hhead, Norm.push_name _ _ file hname] at h
  rw [path_Clean_eq _ (by simp), hnorm2]
  generalize hN : readElems ((Y ++ ['/']).head? = some '/') { ups := 0, names := [] } Y = N
    at h hprop ⊢
  change (∀ _, _) ∧ _ at hprop
  have hN2 : (pathElems Y).foldl (Norm.push ((Y ++ ['/']).head? = some '/'))
      { ups := 0, names := [] } = N := hN
  rw [hN2] at hprop
  have helems : ({ N with names := N.names ++ [file] } : Norm).elems = N.elems ++ [file] := by
    simp [Norm.elems]
  rw [helems] at h
  have hpos1 := render_length_lt ((Y ++ ['/']).head? = some '/') (N.elems ++ [file]) (by simp)
    (by
      intro e he
      rcases List.mem_append.1 he with h1 | h1
      · exact N.elems_ne_nil hprop.2 e h1
      · simp only [List.mem_singleton] at h1
        rw [h1]
        exact hfne)
  rw [if_neg (by omega)] at h
  by_cases he : N.elems = []
  · rw [he] at h ⊢
    cases hr : (decide ((Y ++ ['/']).head? = some '/')) with
    | true =>
      simp only [render_nil, if_true, List.length_singleton, Nat.succ_ne_zero, if_false]
      exact os_Stat_root fs
    | false =>
      simp only [render_nil, Bool.false_eq_true, if_false, List.length_nil, if_true]
      rw [List.nil_append, render_singleton, hr] at h
      simp only [Bool.false_eq_true, if_false, List.nil_append] at h
      exact os_Stat_dot hs hfne h
  · have hpos2 := render_length_lt ((Y ++ ['/']).head? = some '/') N.elems he
      (N.elems_ne_nil hprop.2)
    rw [if_neg (by omega)]
    rw [render_concat _ _ _ he] at h
    refine os_Stat_dir_of_longer ?_ h
    intro h0
    rw [h0] at hpos2
    simp at hpos2

theorem Res.eq_ret_of_value {α : Type} {r : Res α} {a : α} (h : r.value = some a) :
    r = .ret a r.world := by
  cases r with
  | ret b w =>
    simp only [Res.value, Option.some.injEq] at h
    subst h
    rfl
  | fatal msg w => cases h

/-- C1, as stated, fails for an archive that holds the same path twice: the
download and the extraction of the entries `a` (one byte `1`) and `a` (one
byte `2`) end without error, and `/d/a` holds the bytes of the second entry,
not those of the first. -/
theorem archive_repeated_path :
    (downloadZipFile (libOf (.ok [entryOf "a".toList [1], entryOf "a".toList [2]]))
        "http://h/a.zip".toList "a.zip".toList "/d".toList
        (worldOf none (treeOf [] []) (.ok (okWith [80, 75])))).value = some none
      ∧ os_Stat (downloadZipFile (libOf (.ok [entryOf "a".toList [1], entryOf "a".toList [2]]))
          "http://h/a.zip".toList "a.zip".toList "/d".toList
          (worldOf none (treeOf [] []) (.ok (okWith [80, 75])))).world.fs
          (path_Join ["/d".toList, "a".toList])
        = .ok (.file [2])
      ∧ os_Stat (downloadZipFile (libOf (.ok [entryOf "a".toList [1], entryOf "a".toList [2]]))
          "http://h/a.zip".toList "a.zip".toList "/d".toList
          (worldOf none (treeOf [] []) (.ok (okWith [80, 75])))).world.fs
          (path_Join ["/d".toList, "a".toList])
        ≠ .ok (.file [1]) := by
  decide

/-- C1, amended: when the extraction loop of downloadZipFile ends without
error, every entry of the archive that no later entry writes again (an
archive may hold a path twice, and the later entry then overwrites the
earlier one) exists at `path.Join(dst, entry path)` as a file with exactly
the bytes of that entry, every directory on the way to it exists, and where
the entry path is a directory part followed by a file name, the directory
`path.Join(dst, dir)` that writeZipFile asks for exists. -/
theorem archive_installed (L : Lib) (dst : Str) (entries : List ZipFile) (w w2 : World)
    (h : writeZipFiles L dst entries w = .ret none w2)
    (before : List ZipFile) (e : ZipFile) (after : List ZipFile)
    (hsplit : entries = before ++ e :: after)
    (hlast : ∀ e2 ∈ after, lexLoc w.fs.cwd (path_Join [dst, e2.Name])
      ≠ lexLoc w.fs.cwd (path_Join [dst, e.Name])) :
    ∃ data, e.Open = .ok { data := data, err := none }
      ∧ os_Stat w2.fs (path_Join [dst, e.Name]) = .ok (.file data)
      ∧ (∀ D rest, path_Join [dst, e.Name] = D ++ '/' :: rest → D ≠ [] →
          os_Stat w2.fs D = .ok .dir)
      ∧ (∀ dir file, e.Name = dir ++ '/' :: file → '/' ∉ file → isName file = true →
          (path_Split e.Name).1 = dir ++ ['/']
            ∧ os_Stat w2.fs (path_Join [dst, (path_Split e.Name).1]) = .ok .dir) := by
  obtain ⟨data, hopen, hstat⟩ :=
    (writeZipFiles_ret_nil L dst entries w w2 h).2.2 before e after hsplit hlast
  refine ⟨data, hopen, hstat, fun D rest hD hne => ?_, fun dir file hname hs hfile => ?_⟩
  · rw [hD] at hstat
    exact os_Stat_dir_of_longer hne hstat
  · rw [hname] at hstat ⊢
    rw [path_Split_append dir file hs]
    exact ⟨rfl, os_Stat_join_dir dst dir file hs hfile hstat⟩

/-- The instance of the amended C1 at the archive of `plugin.dll` and
`config/settings.json`, the destination `/mods/CoolMod` and the second entry:
the loop ends without error, the file is on disk with its bytes, and the
directory `/mods/CoolMod/config` exists. -/
theorem archive_installed_witness :
    (writeZipFiles (libOf (.ok [])) "/mods/CoolMod".toList
        [entryOf "plugin.dll".toList [77, 90], entryOf "config/settings.json".toList [123, 125]]
        (worldOf none (treeOf [["mods".toList], ["mods".toList, "CoolMod".toList]] [])
          refused)).value = some none
      ∧ os_Stat (writeZipFiles (libOf (.ok [])) "/mods/CoolMod".toList
          [entryOf "plugin.dll".toList [77, 90], entryOf "config/settings.json".toList [123, 125]]
          (worldOf none (treeOf [["mods".toList], ["mods".toList, "CoolMod".toList]] [])
            refused)).world.fs "/mods/CoolMod/config/settings.json".toList
        = .ok (.file [123, 125])
      ∧ os_Stat (writeZipFiles (libOf (.ok [])) "/mods/CoolMod".toList
          [entryOf "plugin.dll".toList [77, 90], entryOf "config/settings.json".toList [123, 125]]
          (worldOf none (treeOf [["mods".toList], ["mods".toList, "CoolMod".toList]] [])
            refused)).world.fs "/mods/CoolMod/config".toList
        = .ok .dir
      ∧ ∃ data, (entryOf "config/settings.json".toList [123, 125]).Open
          = .ok { data := data, err := none }
        ∧ os_Stat (writeZipFiles (libOf (.ok [])) "/mods/CoolMod".toList
            [entryOf "plugin.dll".toList [77, 90],
              entryOf "config/settings.json".toList [123, 125]]
            (worldOf none (treeOf [["mods".toList], ["mods".toList, "CoolMod".toList]] [])
              refused)).world.fs
            (path_Join ["/mods/CoolMod".toList, "config/settings.json".toList])
          = .ok (.file data) :=
  ⟨by decide, by decide, by decide,
    (archive_installed (libOf (.ok [])) "/mods/CoolMod".toList
      [entryOf "plugin.dll".toList [77, 90], entryOf "config/settings.json".toList [123, 125]]
      (worldOf none (treeOf [["mods".toList], ["mods".toList, "CoolMod".toList]] []) refused)
      _ (Res.eq_ret_of_value (by decide))
      [entryOf "plugin.dll".toList [77, 90]] (entryOf "config/settings.json".toList [123, 125]) []
      rfl (by simp)).imp fun _ hd => ⟨hd.1, hd.2.1⟩⟩

/-! ## main without mods -/

theorem append_ne_self (p : Loc) {q : Loc} (hq : q ≠ []) : p ++ q ≠ p := by
  intro h
  have h1 := congrArg List.length h
  have h2 := List.length_pos.2 hq
  rw [List.length_append] at h1
  omega

theorem stepLoc_name (cur : Loc) {e : Str} (he : isName e = true) : stepLoc cur e = cur ++ [e] := by
  have h1 : e ≠ [] := by intro h; subst h; simp [isName] at he
  have h2 : e ≠ ['.'] := by intro h; subst h; simp [isName] at he
  have h3 : e ≠ ['.', '.'] := by intro h; subst h; simp [isName] at he
  simp [stepLoc, h1, h2, h3]

theorem mkdirAllIfNotExists_fatal {name : Str} {w w1 : World} {msg : Str}
    (h : mkdirAllIfNotExists name w = .fatal msg w1) :
    ∃ err, (os_MkdirAll w.fs name).1 = some err ∧ msg = err.Error
      ∧ w1 = { w with fs := (os_MkdirAll w.fs name).2 } := by
  unfold mkdirAllIfNotExists at h
  cases hs : os_Stat w.fs name with
  | ok n => simp [hs] at h
  | error err =>
    simp only [hs] at h
    by_cases hn : isNotExist err = true
    · rw [if_pos hn] at h
      cases hm : os_MkdirAll w.fs name with
      | mk r fs1 =>
        rw [hm] at h
        cases r with
        | none => cases h
        | some e1 =>
          simp only [Res.fatal.injEq] at h
          exact ⟨e1, rfl, h.1.symm, h.2.symm⟩
    · rw [if_neg hn] at h
      cases h

theorem lexLoc_shaped (cwd : Loc) {path : Str} (hs : Shaped path) :
    ∃ q n, lexLoc cwd path = q ++ [n] := by
  obtain ⟨_, pre, names, helems, _, hnames, hne⟩ := hs
  rcases List.eq_nil_or_concat names with h | ⟨ns, n, h⟩
  · exact absurd h hne
  · subst h
    unfold lexLoc
    rw [helems]
    simp only [List.concat_eq_append, List.foldl_append, List.foldl_cons, List.foldl_nil]
    rw [stepLoc_name _ (hnames n (by simp))]
    exact ⟨_, n, rfl⟩

theorem getLast_shaped {path : Str} (hs : Shaped path) :
    (pathElems path).getLast?.map isName = some true := by
  obtain ⟨_, pre, names, helems, _, hnames, hne⟩ := hs
  rcases List.eq_nil_or_concat names with h | ⟨ns, n, h⟩
  · exact absurd h hne
  · subst h
    rw [helems]
    simp only [List.concat_eq_append, ← List.append_assoc, List.getLast?_append, List.getLast?_singleton]
    simp [hnames n (by simp)]

theorem FS.get_removeTree (fs : FS) (p q : Loc) :
    (fs.removeTree p).get q
      = if q = [] then some .dir
        else if p <+: q ∧ fs.stays q = false then none else fs.get q := by
  unfold FS.get FS.removeTree
  by_cases hq : q = []
  · simp [hq]
  · simp [hq]

theorem FS.stays_of_below (fs : FS) {p q : Loc} (hpq : p <+: q) (h : fs.stays q = true) :
    fs.stays p = true := by
  unfold FS.stays at h ⊢
  rw [List.any_eq_true] at h ⊢
  obtain ⟨r, hr, hd⟩ := h
  refine ⟨r, hr, ?_⟩
  simp only [decide_eq_true_eq] at hd ⊢
  exact ⟨hpq.trans hd.1, hd.2⟩

/-- What `os.RemoveAll` of a cleaned path leaves: no file is created or
changed, and when it reports no error the path is not there and, when the
path led somewhere, nothing is left at or below that place. -/
theorem os_RemoveAll_shaped (fs : FS) {path : Str} (hs : Shaped path) :
    (os_RemoveAll fs path).2.cwd = fs.cwd
      ∧ (∀ x d, (os_RemoveAll fs path).2.get x = some (.file d) → fs.get x = some (.file d))
      ∧ ((os_RemoveAll fs path).1 = none →
          (∀ n, os_Stat (os_RemoveAll fs path).2 path ≠ .ok n)
            ∧ ∀ p, namei fs path = .ok p →
              ∀ q, p <+: q → (os_RemoveAll fs path).2.get q = none) := by
  have hlast := getLast_shaped hs
  obtain ⟨q0, n0, hlex⟩ := lexLoc_shaped fs.cwd hs
  have hfiles : ∀ p x d, (fs.removeTree p).get x = some (.file d) → fs.get x = some (.file d) := by
    intro p x d h
    rw [FS.get_removeTree] at h
    split at h
    · cases h
    · split at h
      · cases h
      · exact h
  unfold os_RemoveAll
  rw [if_neg hs.1, if_neg (by simp [hlast])]
  cases hn : namei fs path with
  | error e =>
    have hstat : ∀ n, os_Stat fs path ≠ .ok n := by
      intro n h
      obtain ⟨p, hp, _⟩ := os_Stat_eq_ok.1 h
      rw [hn] at hp
      cases hp
    cases e <;>
      exact ⟨rfl, fun _ _ h => h, fun _ => ⟨hstat, fun p hp => by cases hp⟩⟩
  | ok p =>
    have hp : p = q0 ++ [n0] := by rw [namei_eq_lexLoc hn, hlex]
    have hpne : p ≠ [] := by rw [hp]; simp
    simp only
    by_cases hst : fs.stays p = true
    · rw [if_pos hst]
      exact ⟨rfl, hfiles p, fun h => by cases h⟩
    · rw [if_neg hst]
      have hst2 : fs.stays p = false := by simpa using hst
      have hgone : ∀ q, p <+: q → (fs.removeTree p).get q = none := by
        intro q hq
        rw [FS.get_removeTree]
        have hqne : q ≠ [] := by
          intro h0
          subst h0
          exact hpne (List.prefix_nil.1 hq)
        have hsq : fs.stays q = false := by
          cases hq2 : fs.stays q with
          | false => rfl
          | true =>
            have := fs.stays_of_below hq hq2
            rw [hst2] at this
            cases this
        simp [hqne, hq, hsq]
      refine ⟨rfl, hfiles p, fun _ => ⟨?_, ?_⟩⟩
      · intro n h
        obtain ⟨p2, hp2, hg⟩ := os_Stat_eq_ok.1 h
        have : p2 = p := by
          rw [namei_eq_lexLoc hp2, namei_eq_lexLoc hn]
          rfl
        subst this
        rw [hgone p2 (List.prefix_refl _)] at hg
        cases hg
      · intro p2 hp2 q hq
        simp only [Except.ok.injEq] at hp2
        subst hp2
        exact hgone q hq

theorem parseMods_unset {w : World} (h : os_Getenv w "MOD_IDS".toList = []) :
    parseMods w = .ret [] w := by
  unfold parseMods
  simp only [if_pos h]

theorem os_RemoveAll_refused (fs : FS) {path : Str} (hs : Shaped path) {e : Errno}
    (hn : namei fs path = .error e) (he : e ≠ .ENOENT) : (os_RemoveAll fs path).1 ≠ none := by
  unfold os_RemoveAll
  rw [if_neg hs.1, if_neg (by simp [getLast_shaped hs]), hn]
  cases e with
  | ENOENT => exact absurd rfl he
  | ENOTDIR => simp
  | EISDIR => simp
  | EINVAL => simp
  | EACCES => simp

/-- The state `main` ends in when no mod is asked for, by the cases of its
first step. -/
theorem main_unset_cases (L : Lib) (gameRoot : Str) (w : World)
    (henv : os_Getenv w "MOD_IDS".toList = []) :
    (∃ msg w1, mkdirAllIfNotExists (path_Join [gameRoot, "FactoryGame/Mods".toList]) w
          = .fatal msg w1 ∧ main L gameRoot w = .fatal msg w1)
      ∨ (∃ u w1, mkdirAllIfNotExists (path_Join [gameRoot, "FactoryGame/Mods".toList]) w
          = .ret u w1
        ∧ main L gameRoot w
          = match os_RemoveAll w1.fs (path_Join [gameRoot, "FactoryGame/Mods".toList]) with
            | (some err, fs4) =>
              .fatal err.Error
                { (log_Print w1 "No Mod IDs given. Deleting all!".toList) with fs := fs4 }
            | (none, fs4) =>
              .ret () { (log_Print w1 "No Mod IDs given. Deleting all!".toList) with fs := fs4 }) := by
  cases hm : mkdirAllIfNotExists (path_Join [gameRoot, "FactoryGame/Mods".toList]) w with
  | fatal msg w1 =>
    left
    exact ⟨msg, w1, rfl, by simp only [main, hm]⟩
  | ret u w1 =>
    right
    refine ⟨u, w1, rfl, ?_⟩
    have henv1 : os_Getenv w1 "MOD_IDS".toList = [] := by
      have := (mkdirAllIfNotExists_ret hm).2.2.1
      unfold os_Getenv at henv ⊢
      rw [this]
      exact henv
    simp only [main, hm, parseMods_unset henv1, List.length_nil, if_true, log_Print]

/-- C6, as stated, fails where `os.RemoveAll` cannot delete everything: with a
file in the mods directory that the process may not delete, main (MOD_IDS not
set) ends by log.Fatal with the error of `os.RemoveAll`, and the mods
directory and the file are still there. -/
theorem main_no_mods_undeletable :
    os_Getenv (worldOf none pinnedModsTree refused) "MOD_IDS".toList = []
      ∧ (main (libOf (.ok [])) "/g".toList (worldOf none pinnedModsTree refused)).isFatal = true
      ∧ os_Stat (main (libOf (.ok [])) "/g".toList (worldOf none pinnedModsTree refused)).world.fs
          "/g/FactoryGame/Mods".toList = .ok .dir
      ∧ os_Stat (main (libOf (.ok [])) "/g".toList (worldOf none pinnedModsTree refused)).world.fs
          "/g/FactoryGame/Mods/X/old.dll".toList = .ok (.file [1, 2]) := by
  decide

/-- C6, amended: when MOD_IDS is not set or empty, parseMods returns the
empty list, and main, from every filesystem state, makes no HTTP request and
creates or changes no file, and either returns, and then the mods directory
does not exist, no path below it exists and nothing is left at or below its
place, or ends the process by log.Fatal with the error that `os.MkdirAll` or
`os.RemoveAll` reported. -/
theorem main_no_mods (L : Lib) (gameRoot : Str) (w : World)
    (henv : os_Getenv w "MOD_IDS".toList = []) :
    parseMods w = .ret [] w
      ∧ (main L gameRoot w).world.requests = w.requests
      ∧ (∀ x d, (main L gameRoot w).world.fs.get x = some (.file d) →
          w.fs.get x = some (.file d))
      ∧ ((∃ w2, main L gameRoot w = .ret () w2
            ∧ (∀ n, os_Stat w2.fs (path_Join [gameRoot, "FactoryGame/Mods".toList]) ≠ .ok n)
            ∧ (∀ rest n, os_Stat w2.fs
                (path_Join [gameRoot, "FactoryGame/Mods".toList] ++ '/' :: rest) ≠ .ok n)
            ∧ (∀ q, lexLoc w.fs.cwd (path_Join [gameRoot, "FactoryGame/Mods".toList]) <+: q →
                w2.fs.get q = none))
        ∨ (∃ err w2, main L gameRoot w = .fatal err.Error w2
            ∧ ((os_MkdirAll w.fs (path_Join [gameRoot, "FactoryGame/Mods".toList])).1 = some err
              ∨ ∃ u w1, mkdirAllIfNotExists (path_Join [gameRoot, "FactoryGame/Mods".toList]) w
                    = .ret u w1
                ∧ (os_RemoveAll w1.fs (path_Join [gameRoot, "FactoryGame/Mods".toList])).1
                    = some err))) := by
  have hs := modsPath_shaped gameRoot
  refine ⟨parseMods_unset henv, ?_⟩
  rcases main_unset_cases L gameRoot w henv with ⟨msg, w1, hm, hmain⟩ | ⟨u, w1, hm, hmain⟩
  · -- os.MkdirAll failed
    obtain ⟨err, herr, hmsg, hw1⟩ := mkdirAllIfNotExists_fatal hm
    rw [hmain]
    simp only [Res.world]
    refine ⟨by rw [hw1], ?_, Or.inr ⟨err, w1, by rw [hmsg], Or.inl herr⟩⟩
    intro x d hx
    rw [hw1] at hx
    exact os_MkdirAll_files w.fs _ x d hx
  · obtain ⟨hg, hfiles, _, _, hreq, _, hdir, hsame⟩ := mkdirAllIfNotExists_ret hm
    obtain ⟨hcwd, hrfiles, hgone⟩ := os_RemoveAll_shaped w1.fs hs
    have hworld : (main L gameRoot w).world.fs
        = (os_RemoveAll w1.fs (path_Join [gameRoot, "FactoryGame/Mods".toList])).2
        ∧ (main L gameRoot w).world.requests = w1.requests := by
      rw [hmain]
      cases os_RemoveAll w1.fs (path_Join [gameRoot, "FactoryGame/Mods".toList]) with
      | mk r fs4 => cases r <;> exact ⟨rfl, rfl⟩
    rw [hworld.1, hworld.2]
    refine ⟨hreq, fun x d hx => hfiles x d (hrfiles x d hx), ?_⟩
    rw [hmain]
    cases hr : os_RemoveAll w1.fs (path_Join [gameRoot, "FactoryGame/Mods".toList]) with
    | mk r fs4 =>
      rw [hr] at hgone
      cases r with
      | some e => exact Or.inr ⟨e, _, rfl, Or.inr ⟨u, w1, hm, by rw [hr]⟩⟩
      | none =>
        left
        simp only at hgone ⊢
        obtain ⟨habsent, hbelow⟩ := hgone trivial
        refine ⟨_, rfl, habsent, fun rest n hn => habsent _ (os_Stat_dir_of_longer hs.1 hn), ?_⟩
        intro q hq
        -- the path led somewhere: either it was there, or it has just been made
        have hnamei : ∃ p, namei w1.fs (path_Join [gameRoot, "FactoryGame/Mods".toList])
            = .ok p := by
          by_cases hex : ∃ err, os_Stat w.fs (path_Join [gameRoot, "FactoryGame/Mods".toList])
              = .error err ∧ isNotExist err = true
          · obtain ⟨p, hp, _⟩ := os_Stat_eq_ok.1 (hdir hex)
            exact ⟨p, hp⟩
          · have hw := hsame hex
            subst hw
            cases hn : namei w1.fs (path_Join [gameRoot, "FactoryGame/Mods".toList]) with
            | ok p => exact ⟨p, rfl⟩
            | error e =>
              exfalso
              by_cases he : e = .ENOENT
              · subst he
                exact hex ⟨.pathError "stat".toList
                  (path_Join [gameRoot, "FactoryGame/Mods".toList]) .ENOENT,
                  by simp only [os_Stat, hn], rfl⟩
              · have := os_RemoveAll_refused w1.fs hs hn he
                rw [hr] at this
                exact this rfl
        obtain ⟨p, hp⟩ := hnamei
        apply hbelow p hp q
        rw [namei_eq_lexLoc hp, hg.1]
        exact hq

/-- The instance of the amended C6 at the game root `/g` and a tree whose
mods directory holds a file: main returns, the mods directory is gone with
what it held, the file outside it is still there, and no request has been
made. -/
theorem main_no_mods_witness :
    (main (libOf (.ok [])) "/g".toList (worldOf none modsTree refused)).value = some ()
      ∧ os_Stat (main (libOf (.ok [])) "/g".toList (worldOf none modsTree refused)).world.fs
          "/g/FactoryGame/Mods".toList
        = .error (.pathError "stat".toList "/g/FactoryGame/Mods".toList .ENOENT)
      ∧ os_Stat (main (libOf (.ok [])) "/g".toList (worldOf none modsTree refused)).world.fs
          "/g/keep.txt".toList = .ok (.file [7])
      ∧ os_Stat (main (libOf (.ok [])) "/g".toList (worldOf none modsTree refused)).world.fs
          "/g/FactoryGame".toList = .ok .dir
      ∧ (main (libOf (.ok [])) "/g".toList (worldOf none modsTree refused)).world.requests
        = (worldOf none modsTree refused).requests
      ∧ (∀ x d, (main (libOf (.ok [])) "/g".toList
            (worldOf none modsTree refused)).world.fs.get x = some (.file d) →
          (worldOf none modsTree refused).fs.get x = some (.file d)) :=
  ⟨by decide, by decide, by decide, by decide,
    (main_no_mods (libOf (.ok [])) "/g".toList (worldOf none modsTree refused)
      (by decide)).2.1,
    (main_no_mods (libOf (.ok [])) "/g".toList (worldOf none modsTree refused)
      (by decide)).2.2.1⟩
end ModHelper
